import Mathlib

/-!
Verification development for the uv project-command module and its
PubGrub-style resolver layer.

Part 1 embeds `crates/uv/src/commands/project/mod.rs` (`init_environment`,
`update_environment`) shallowly: every fallible external call is an oracle
field of a world record, and the observable side effects (removing a venv
directory, creating a venv, building a registry client, resolving,
installing) are collected in an explicit trace.
-/

namespace Proj

/-- The `uv_interpreter::Error` type, as matched by `init_environment`:
the code distinguishes exactly the `NotFound` variant from all others. -/
inductive InterpreterError where
  | notFound (path : Nat)
  | other (code : Nat)
  deriving DecidableEq, Repr

/-- An opaque model of an I/O error (`std::io::Error`). -/
structure IoError where
  code : Nat
  deriving DecidableEq, Repr

/-- An opaque model of a formatting error (`std::fmt::Error`). -/
structure FmtError where
  code : Nat
  deriving DecidableEq, Repr

/-- An opaque model of a `uv_virtualenv::Error`. -/
structure VenvError where
  code : Nat
  deriving DecidableEq, Repr

/-- The `ProjectError` enum of `project/mod.rs`, restricted to the variants
reachable from `init_environment`: each wraps the underlying error
untranslated (the Rust `#[from]` conversions). -/
inductive ProjectError where
  | interpreter (e : InterpreterError)
  | virtualenv (e : VenvError)
  | fmt (e : FmtError)
  | io (e : IoError)
  deriving DecidableEq, Repr

/-- A model of `Interpreter`: only the fields `init_environment` reads. -/
structure Interpreter where
  pythonVersion : Nat
  sysExecutable : Nat
  deriving DecidableEq, Repr

/-- A model of `PythonEnvironment`: a root path and its interpreter. -/
structure PythonEnvironment where
  root : Nat
  interpreter : Interpreter
  deriving DecidableEq, Repr

/-- Observable filesystem / network side effects of the project commands. -/
inductive Effect where
  | removeDir (root : Nat)
  | createVenv
  | buildRegistryClient
  | resolve
  | install
  deriving DecidableEq, Repr

/-- Oracle world for `init_environment`: one field per external call the
function can make, in source order. `requestSatisfied p i` models
`InterpreterRequest::parse(python).satisfied(venv.interpreter())`;
`specContains s v` models `requires_python.contains(python_version)`. -/
structure InitWorld where
  fromRoot : Except InterpreterError PythonEnvironment
  requestSatisfied : Nat → Interpreter → Bool
  specContains : Nat → Nat → Bool
  writeRemoving : Except FmtError Unit
  removeDir : Except IoError Unit
  fromRequestedPython : Nat → Except InterpreterError PythonEnvironment
  fromDefaultPython : Except InterpreterError PythonEnvironment
  writeUsing : Except FmtError Unit
  writeCreating : Except FmtError Unit
  createVenv : Except VenvError PythonEnvironment

/-- The `venv_python_satisfactory` let-binding of `init_environment`:
`--python` has highest precedence; otherwise `requires_python` from
`pyproject.toml`; otherwise the venv is accepted. -/
def venvPythonSatisfactory (python : Option Nat) (requiresPython : Option Nat)
    (w : InitWorld) (interp : Interpreter) : Bool :=
  match python with
  | some p => w.requestSatisfied p interp
  | none =>
    match requiresPython with
    | some rp => w.specContains rp interp.pythonVersion
    | none => true

/-- Interpreter selection in `init_environment`: from the requested python
when given, else the default python. -/
def selectInterp (python : Option Nat) (w : InitWorld) :
    Except InterpreterError PythonEnvironment :=
  match python with
  | some p => w.fromRequestedPython p
  | none => w.fromDefaultPython

/-- The creation tail of `init_environment`, continued: print and create. -/
def createPhase (python : Option Nat) (w : InitWorld) (eff : List Effect) :
    Except ProjectError PythonEnvironment × List Effect :=
  match selectInterp python w with
  | .error e => (.error (.interpreter e), eff)
  | .ok _env =>
    match w.writeUsing with
    | .error e => (.error (.fmt e), eff)
    | .ok _ =>
      match w.writeCreating with
      | .error e => (.error (.fmt e), eff)
      | .ok _ =>
        match w.createVenv with
        | .error e => (.error (.virtualenv e), eff ++ [.createVenv])
        | .ok venv => (.ok venv, eff ++ [.createVenv])

/-- Shallow embedding of `init_environment` from
`crates/uv/src/commands/project/mod.rs`: discover the venv at the project
root; if found, keep it when its interpreter is satisfactory, otherwise
print, remove the directory, and recreate; a `NotFound` discovery error
falls through to creation; any other discovery error is returned. -/
def init_environment (python : Option Nat) (requiresPython : Option Nat)
    (w : InitWorld) : Except ProjectError PythonEnvironment × List Effect :=
  match w.fromRoot with
  | .ok venv =>
    if venvPythonSatisfactory python requiresPython w venv.interpreter then
      (.ok venv, [])
    else
      match w.writeRemoving with
      | .error e => (.error (.fmt e), [])
      | .ok _ =>
        match w.removeDir with
        | .error e => (.error (.io e), [])
        | .ok _ => createPhase python w [.removeDir venv.root]
  | .error (.notFound _) => createPhase python w []
  | .error e => (.error (.interpreter e), [])

/-- A model of `anyhow::Error` for `update_environment`. -/
structure AnyErr where
  code : Nat
  deriving DecidableEq, Repr

/-- The `SatisfiesResult` of `uv_installer`, as matched by
`update_environment`. -/
inductive SatisfiesResult where
  | fresh (recursiveRequirements : List Nat)
  | unsatisfied (requirement : Nat)
  deriving DecidableEq, Repr

/-- A model of `RequirementsSpecification`: the fields `update_environment`
reads. -/
structure Spec where
  requirements : List Nat
  constraints : List Nat
  overrides : List Nat
  sourceTrees : List Nat
  project : Option Nat
  deriving DecidableEq, Repr

/-- Oracle world for `update_environment`, one field per fallible external
call in source order. -/
structure UpdateWorld where
  fromSources : Except AnyErr Spec
  sitePackages : Except AnyErr Nat
  satisfies : Except AnyErr SatisfiesResult
  tags : Except AnyErr Nat
  resolveRes : Except AnyErr Nat
  installRes : Except AnyErr Unit
  diagnoseRes : Except AnyErr Unit

/-- Shallow embedding of `update_environment` from
`crates/uv/src/commands/project/mod.rs`: read the requirements
specification; when there are no source trees and the site packages already
satisfy the requirements (`SatisfiesResult::Fresh`), return the environment
unchanged; otherwise build a registry client, resolve, and install into the
environment. -/
def update_environment (venv : PythonEnvironment) (w : UpdateWorld) :
    Except AnyErr PythonEnvironment × List Effect :=
  match w.fromSources with
  | .error e => (.error e, [])
  | .ok spec =>
    match w.sitePackages with
    | .error e => (.error e, [])
    | .ok _sp =>
      let freshExit : Option (Except AnyErr PythonEnvironment × List Effect) :=
        if spec.sourceTrees.isEmpty then
          match w.satisfies with
          | .error e => some (.error e, [])
          | .ok (.fresh _) => some (.ok venv, [])
          | .ok (.unsatisfied _) => none
        else none
      match freshExit with
      | some r => r
      | none =>
        match w.tags with
        | .error e => (.error e, [])
        | .ok _tags =>
          match w.resolveRes with
          | .error e => (.error e, [.buildRegistryClient])
          | .ok _resolution =>
            match w.installRes with
            | .error e => (.error e, [.buildRegistryClient, .resolve])
            | .ok _ =>
              match w.diagnoseRes with
              | .error e => (.error e, [.buildRegistryClient, .resolve, .install])
              | .ok _ => (.ok venv, [.buildRegistryClient, .resolve, .install])

/-- A concrete environment used by witnesses. -/
def sampleVenv : PythonEnvironment := ⟨0, ⟨38, 1⟩⟩

/-- A concrete freshly created environment used by witnesses. -/
def sampleNewVenv : PythonEnvironment := ⟨0, ⟨39, 2⟩⟩

/-- A world where discovery finds `sampleVenv` and every operation
succeeds; the interpreter request is never satisfied. -/
def initWorldUnsat : InitWorld where
  fromRoot := .ok sampleVenv
  requestSatisfied := fun _ _ => false
  specContains := fun _ _ => false
  writeRemoving := .ok ()
  removeDir := .ok ()
  fromRequestedPython := fun _ => .ok sampleNewVenv
  fromDefaultPython := .ok sampleNewVenv
  writeUsing := .ok ()
  writeCreating := .ok ()
  createVenv := .ok sampleNewVenv

/-- A world where discovery finds `sampleVenv` and the interpreter request
is always satisfied. -/
def initWorldSat : InitWorld :=
  { initWorldUnsat with requestSatisfied := fun _ _ => true }

/-- A world where environment discovery reports `NotFound`. -/
def initWorldNotFound : InitWorld :=
  { initWorldUnsat with fromRoot := .error (.notFound 0) }

/-- A world where environment discovery fails with a non-`NotFound` error. -/
def initWorldErr : InitWorld :=
  { initWorldUnsat with fromRoot := .error (.other 5) }

/-- An update world whose site packages are already fresh. -/
def updateWorldFresh : UpdateWorld where
  fromSources := .ok ⟨[1], [], [], [], none⟩
  sitePackages := .ok 7
  satisfies := .ok (.fresh [1])
  tags := .ok 0
  resolveRes := .ok 0
  installRes := .ok ()
  diagnoseRes := .ok ()

end Proj

/-!
Part 2: the Version Range algebra. Modelled from the spec: the
`PubGrubRange` type re-exported by `crates/uv-resolver/src/pubgrub/mod.rs`
is not under src. Per spec §3 and §4.1 a range is an immutable set of
version intervals with inclusive or exclusive bounds, stored in normalized
(merged, non-overlapping, ascending) interval form, closed under union,
intersection and complement, with containment and emptiness tests.
Versions are modelled as naturals; complement and intersection are the
primitive operations and union is defined from them by De Morgan, in the
pubgrub style.
-/

namespace VRange

/-- A lower bound of an interval: unbounded, inclusive, or exclusive. -/
inductive LB where
  | unbounded
  | incl (v : Nat)
  | excl (v : Nat)
  deriving DecidableEq, Repr

/-- An upper bound of an interval: unbounded, inclusive, or exclusive. -/
inductive UB where
  | unbounded
  | incl (v : Nat)
  | excl (v : Nat)
  deriving DecidableEq, Repr

/-- One version interval: a lower and an upper bound. -/
structure Seg where
  lo : LB
  hi : UB
  deriving DecidableEq, Repr

/-- A version range: a list of segments; the algebra keeps it normalized. -/
abbrev Range := List Seg

/-- Containment of a version above a lower bound. -/
def lbMem (lb : LB) (v : Nat) : Bool :=
  match lb with
  | .unbounded => true
  | .incl a => a ≤ v
  | .excl a => a < v

/-- Containment of a version below an upper bound. -/
def ubMem (ub : UB) (v : Nat) : Bool :=
  match ub with
  | .unbounded => true
  | .incl b => v ≤ b
  | .excl b => v < b

/-- Containment of a version in one segment. -/
def Seg.mem (s : Seg) (v : Nat) : Bool := lbMem s.lo v && ubMem s.hi v

/-- The containment test of the range algebra. -/
def contains (r : Range) (v : Nat) : Bool := r.any (fun s => s.mem v)

/-- Order on lower bounds: `lbLe a b` means bound `a` starts no later than
`b` (an exclusive bound starts just after its inclusive twin). -/
def lbLe (a b : LB) : Bool :=
  match a, b with
  | .unbounded, _ => true
  | _, .unbounded => false
  | .incl a, .incl b => a ≤ b
  | .incl a, .excl b => a ≤ b
  | .excl a, .incl b => a < b
  | .excl a, .excl b => a ≤ b

/-- Order on upper bounds: `ubLe a b` means bound `a` ends no later than
`b` (an exclusive bound ends just before its inclusive twin). -/
def ubLe (a b : UB) : Bool :=
  match a, b with
  | _, .unbounded => true
  | .unbounded, _ => false
  | .incl a, .incl b => a ≤ b
  | .incl a, .excl b => a < b
  | .excl a, .incl b => a ≤ b
  | .excl a, .excl b => a ≤ b

/-- Strict order on upper bounds. -/
def ubLt (a b : UB) : Bool := !ubLe b a

/-- The later of two lower bounds (the more constraining one). -/
def maxLB (a b : LB) : LB := if lbLe a b then b else a

/-- The earlier of two upper bounds (the more constraining one). -/
def minUB (a b : UB) : UB := if ubLe a b then a else b

/-- Validity of a bound pair: the segment it delimits is non-degenerate
(the generic-version convention of the pubgrub range type). -/
def nonemptyB (lo : LB) (hi : UB) : Bool :=
  match lo, hi with
  | .unbounded, _ => true
  | _, .unbounded => true
  | .incl a, .incl b => a ≤ b
  | .incl a, .excl b => a < b
  | .excl a, .incl b => a < b
  | .excl a, .excl b => a < b

/-- A gap between an upper bound and the next lower bound: the two
segments neither overlap nor touch, so they cannot be merged. -/
def gapB (hi : UB) (lo : LB) : Bool :=
  match hi, lo with
  | .unbounded, _ => false
  | _, .unbounded => false
  | .incl a, .incl b => a < b
  | .incl a, .excl b => a < b
  | .excl a, .incl b => a < b
  | .excl a, .excl b => a ≤ b

/-- Chain condition for the segments following an upper bound: each
segment is valid and gapped away from its predecessor. -/
def chain (hi : UB) : List Seg → Bool
  | [] => true
  | t :: rest => gapB hi t.lo && nonemptyB t.lo t.hi && chain t.hi rest

/-- The normalization invariant of spec §3: merged, non-overlapping,
ascending segments, every one non-degenerate. -/
def Normalized : Range → Bool
  | [] => true
  | s :: rest => nonemptyB s.lo s.hi && chain s.hi rest

/-- Turn a lower bound into the upper bound just before it. -/
def flipL : LB → UB
  | .unbounded => .unbounded
  | .incl a => .excl a
  | .excl a => .incl a

/-- Turn an upper bound into the lower bound just after it. -/
def flipU : UB → LB
  | .unbounded => .unbounded
  | .incl b => .excl b
  | .excl b => .incl b

/-- Complement of the part of a range after a given upper bound. -/
def complTail (hi : UB) : List Seg → List Seg
  | [] =>
    match hi with
    | .unbounded => []
    | h => [⟨flipU h, .unbounded⟩]
  | t :: rest => ⟨flipU hi, flipL t.lo⟩ :: complTail t.hi rest

/-- The complement operation of the range algebra. -/
def complement : Range → Range
  | [] => [⟨.unbounded, .unbounded⟩]
  | s :: rest =>
    match s.lo with
    | .unbounded => complTail s.hi rest
    | lo => ⟨.unbounded, flipL lo⟩ :: complTail s.hi rest

/-- The intersection operation of the range algebra: a merge of the two
segment lists, advancing past whichever segment ends first. -/
def intersect : Range → Range → Range
  | [], _ => []
  | _ :: _, [] => []
  | s :: ss, t :: tt =>
    let lo := maxLB s.lo t.lo
    let hi := minUB s.hi t.hi
    let rest :=
      if ubLt s.hi t.hi then intersect ss (t :: tt)
      else if ubLt t.hi s.hi then intersect (s :: ss) tt
      else intersect ss tt
    if nonemptyB lo hi then ⟨lo, hi⟩ :: rest else rest
  termination_by a b => a.length + b.length

/-- The full range. -/
def full : Range := [⟨.unbounded, .unbounded⟩]

/-- The empty range. -/
def empty : Range := []

/-- The range holding exactly one version. -/
def singleton (v : Nat) : Range := [⟨.incl v, .incl v⟩]

/-- The range holding everything except one version. -/
def exactNot (v : Nat) : Range := [⟨.unbounded, .excl v⟩, ⟨.excl v, .unbounded⟩]

/-- The range of versions at least `v`. -/
def atLeast (v : Nat) : Range := [⟨.incl v, .unbounded⟩]

/-- The range of versions at most `v`. -/
def atMost (v : Nat) : Range := [⟨.unbounded, .incl v⟩]

/-- The range of versions strictly above `v`. -/
def strictlyAbove (v : Nat) : Range := [⟨.excl v, .unbounded⟩]

/-- The range of versions strictly below `v`. -/
def strictlyBelow (v : Nat) : Range := [⟨.unbounded, .excl v⟩]

/-- The range between two versions with the given bound inclusivity. -/
def between (lo : LB) (hi : UB) : Range := if nonemptyB lo hi then [⟨lo, hi⟩] else []

/-- The union operation, by De Morgan from complement and intersection,
in the pubgrub style. -/
def union (a b : Range) : Range := complement (intersect (complement a) (complement b))

/-- Emptiness test. -/
def isEmpty (r : Range) : Bool := r.isEmpty

/-- Disjointness test of spec §4.1. -/
def isDisjoint (a b : Range) : Bool := (intersect a b).isEmpty

/-- Every segment of the list starts with a gap after the bound `h`. -/
def gapsAfter (h : UB) (l : List Seg) : Prop := ∀ s ∈ l, gapB h s.lo = true

end VRange


/-!
Part 3: the Requirement Translator. Modelled from the spec: the
`PubGrubRequirement` type re-exported by
`crates/uv-resolver/src/pubgrub/mod.rs` is not under src. Per spec §4.2 a
requirement (name, version comparisons, optional marker) becomes a version
range by intersecting each comparison's range; a marker that evaluates to
false against the fixed current-environment context drops the requirement
entirely.
-/

namespace Translate

/-- A marker expression: an environment predicate over boolean atoms. -/
inductive Marker where
  | mtrue
  | mfalse
  | mand (a b : Marker)
  | mor (a b : Marker)
  | mnot (a : Marker)
  | atom (idx : Nat)
  deriving DecidableEq, Repr

/-- Evaluate a marker against the fixed current-environment context,
modelled as the list of atom truth values. -/
def evalMarker (env : List Bool) : Marker → Bool
  | .mtrue => true
  | .mfalse => false
  | .mand a b => evalMarker env a && evalMarker env b
  | .mor a b => evalMarker env a || evalMarker env b
  | .mnot a => !evalMarker env a
  | .atom idx => env.getD idx false

/-- One version comparison of a requirement. -/
inductive Cmp where
  | eq (v : Nat)
  | ne (v : Nat)
  | le (v : Nat)
  | lt (v : Nat)
  | ge (v : Nat)
  | gt (v : Nat)
  deriving DecidableEq, Repr

/-- The range of a single comparison. -/
def cmpRange : Cmp → VRange.Range
  | .eq v => VRange.singleton v
  | .ne v => VRange.exactNot v
  | .le v => VRange.atMost v
  | .lt v => VRange.strictlyBelow v
  | .ge v => VRange.atLeast v
  | .gt v => VRange.strictlyAbove v

/-- A raw requirement: package name, comparison list, optional marker. -/
structure Requirement where
  name : Nat
  cmps : List Cmp
  marker : Option Marker
  deriving DecidableEq, Repr

/-- The requirement's version range: the intersection of the ranges of its
comparisons. -/
def reqRange (r : Requirement) : VRange.Range :=
  r.cmps.foldl (fun acc c => VRange.intersect acc (cmpRange c)) VRange.full

/-- Translate one requirement against the current-environment marker
context: a false marker contributes nothing (`none`), never an
unsatisfiable range. -/
def translate (env : List Bool) (r : Requirement) :
    Option (Nat × VRange.Range) :=
  match r.marker with
  | some m => if evalMarker env m then some (r.name, reqRange r) else none
  | none => some (r.name, reqRange r)

/-- Translate a requirement list into the constraint list fed to the
solver: dropped requirements contribute no entry at all. -/
def translateAll (env : List Bool) (reqs : List Requirement) :
    List (Nat × VRange.Range) :=
  reqs.filterMap (translate env)

end Translate

/-!
Part 4: the Metadata Provider's failure handling. Modelled from the spec:
the provider (`uv_types` / resolver internals) is not under src. Per spec
§4.3 and §7, a soft fetch failure (not found, that one version
unavailable) makes the version behave as nonexistent; a `NoVersions`
outcome arises only when no version is fetchable; a hard failure
(auth/transport/parse) aborts the solve at once, propagated untranslated.
-/

namespace Fetch

/-- Outcome of fetching metadata for one (package, version). -/
inductive FetchOutcome where
  | ok (deps : List (Nat × VRange.Range))
  | soft
  | hard (e : Nat)

/-- Walk the candidate versions in preference order: pick the first whose
metadata fetch succeeds, skip soft failures as if the version did not
exist, and abort immediately on a hard failure. Returns `ok none` (the
`NoVersions` signal) only when the whole list is exhausted. -/
def pickVersion (fetch : Nat → FetchOutcome) :
    List Nat → Except Nat (Option (Nat × List (Nat × VRange.Range)))
  | [] => .ok none
  | v :: vs =>
    match fetch v with
    | .ok d => .ok (some (v, d))
    | .soft => pickVersion fetch vs
    | .hard e => .error e

end Fetch

/-!
Part 5: the in-flight fetch deduplication table. Modelled from the spec:
the `InFlight` type of `uv_types` used by
`crates/uv/src/commands/project/mod.rs` is not under src. Per spec §5,
concurrent fetches for the same (package, version) key collapse into one
logical operation; later callers attach to the first fetch's completion.
Concurrency is modelled as an arbitrary sequential interleaving of request
arrivals at the table.
-/

namespace Flight

/-- The in-flight table: each requested key maps to the shared completion
cell of its unique underlying fetch; `nextCell` allocates fresh cells. -/
structure Table where
  entries : List ((Nat × Nat) × Nat)
  nextCell : Nat
  deriving DecidableEq, Repr

/-- The empty table. -/
def Table.emptyT : Table := ⟨[], 0⟩

/-- Look up the completion cell registered for a key. -/
def lookup (t : Table) (k : Nat × Nat) : Option Nat :=
  (t.entries.find? (fun e => e.1 = k)).map (fun e => e.2)

/-- One caller's request: attach to the existing in-flight cell when the
key is present, otherwise atomically insert a fresh cell and win the right
to fetch. Returns the cell the caller awaits and whether an underlying
fetch was issued. -/
def request (t : Table) (k : Nat × Nat) : Table × Nat × Bool :=
  match lookup t k with
  | some c => (t, c, false)
  | none => (⟨(k, t.nextCell) :: t.entries, t.nextCell + 1⟩, t.nextCell, true)

/-- Run a sequence of request arrivals, collecting for each the key, the
awaited cell and whether it issued an underlying fetch. -/
def runRequests (t : Table) : List (Nat × Nat) → Table × List ((Nat × Nat) × Nat × Bool)
  | [] => (t, [])
  | k :: ks =>
    let r := request t k
    let rest := runRequests r.1 ks
    (rest.1, (k, r.2.1, r.2.2) :: rest.2)

/-- The number of underlying fetches issued for a key in an event list. -/
def fetchCount (evs : List ((Nat × Nat) × Nat × Bool)) (k : Nat × Nat) : Nat :=
  (evs.filter (fun e => e.1 = k && e.2.2)).length

end Flight

/-!
Part 6: the Solver Loop. Modelled from the spec: the PubGrub solver behind
`crates/uv-resolver/src/pubgrub/mod.rs` is not under src. Per spec §4.5
the machine moves between solving (propagation and deciding),
backjumping, and the two done states; the decision level is the length of
the decision stack; deciding picks the highest candidate version within
the currently derived range (prefer-latest); an exhausted candidate list
raises the `NoVersions` signal and moves to backjumping; a backjump
undoes the most recent decision, strictly reducing the decision level,
and remembers the untried alternatives of the undone decision.
-/

namespace Solver

/-- A finite package universe: packages, their candidate versions in
descending (prefer-latest) order, the dependency edges of each concrete
(package, version), and the root dependencies. -/
structure Universe where
  pkgs : List Nat
  versions : Nat → List Nat
  deps : Nat → Nat → List (Nat × VRange.Range)
  rootDeps : List (Nat × VRange.Range)

/-- One decision on the stack: the package, its chosen version, and the
untried candidate versions remaining below the choice. -/
structure Frame where
  pkg : Nat
  ver : Nat
  rest : List Nat
  deriving DecidableEq, Repr

/-- The solver states of spec §4.5. -/
inductive Mode where
  | solving
  | backjumping
  | doneSol
  | doneUnsat
  deriving DecidableEq, Repr

/-- The solver state: the decision stack (most recent first; the decision
level is its length), the pending retry left by a backjump, and the mode. -/
structure St where
  stack : List Frame
  pending : Option (Nat × List Nat)
  mode : Mode
  deriving DecidableEq, Repr

/-- The version-per-package assignment recorded on the stack. -/
def decisions (st : St) : List (Nat × Nat) :=
  st.stack.map (fun f => (f.pkg, f.ver))

/-- All version ranges constraining package `q`: those from root
dependencies and those from dependency edges of decided versions. -/
def constraintsOn (u : Universe) (stack : List Frame) (q : Nat) :
    List VRange.Range :=
  ((u.rootDeps.filter (fun e => e.1 = q)).map (fun e => e.2))
    ++ (stack.map (fun f =>
        ((u.deps f.pkg f.ver).filter (fun e => e.1 = q)).map (fun e => e.2))).join

/-- Does version `v` of package `q` lie within the intersection of all
currently derived ranges for `q`? -/
def satisfiesAll (u : Universe) (stack : List Frame) (q v : Nat) : Bool :=
  (constraintsOn u stack q).all (fun r => VRange.contains r v)

/-- Is package `q` decided on the stack? -/
def decidedB (stack : List Frame) (q : Nat) : Bool :=
  stack.any (fun f => f.pkg = q)

/-- Does some decided package violate its derived ranges? -/
def hasConflict (u : Universe) (stack : List Frame) : Bool :=
  stack.any (fun f => !satisfiesAll u stack f.pkg f.ver)

/-- The packages mentioned by the root dependencies or by dependency
edges of decided versions. -/
def mentioned (u : Universe) (stack : List Frame) : List Nat :=
  u.rootDeps.map (fun e => e.1)
    ++ (stack.map (fun f => (u.deps f.pkg f.ver).map (fun e => e.1))).join

/-- The next mentioned-but-undecided package, if any. -/
def nextUndecided (u : Universe) (stack : List Frame) : Option Nat :=
  (mentioned u stack).find? (fun q => !decidedB stack q)

/-- Candidate versions of `q` within its currently derived range, in
descending (prefer-latest) order. -/
def candidates (u : Universe) (stack : List Frame) (q : Nat) : List Nat :=
  (u.versions q).filter (fun v => satisfiesAll u stack q v)

/-- One transition of the solver state machine of spec §4.5. -/
def step (u : Universe) (st : St) : St :=
  match st.mode with
  | .doneSol => st
  | .doneUnsat => st
  | .backjumping =>
    match st.stack with
    | [] => { st with mode := .doneUnsat }
    | f :: rest =>
      { stack := rest, pending := some (f.pkg, f.rest), mode := .solving }
  | .solving =>
    match st.pending with
    | some (_, []) => { st with mode := .backjumping }
    | some (p, v :: vs) =>
      { stack := ⟨p, v, vs⟩ :: st.stack, pending := none, mode := .solving }
    | none =>
      if hasConflict u st.stack then { st with mode := .backjumping }
      else
        match nextUndecided u st.stack with
        | none => { st with mode := .doneSol }
        | some p =>
          match candidates u st.stack p with
          | [] => { st with mode := .backjumping }
          | v :: vs =>
            { stack := ⟨p, v, vs⟩ :: st.stack, pending := none, mode := .solving }

/-- The initial solver state. -/
def solveInit : St := ⟨[], none, .solving⟩

/-- Run the state machine for `n` steps from the initial state. -/
def run (u : Universe) (n : Nat) : St := (step u)^[n] solveInit

/-- A terminal state. -/
def IsDone (st : St) : Prop := st.mode = .doneSol ∨ st.mode = .doneUnsat

/-- The largest candidate-list length over the universe. -/
def maxVers (u : Universe) : Nat :=
  (u.pkgs.map (fun p => (u.versions p).length)).foldr max 0

/-- Rank of a mode in the termination measure: work states above done. -/
def modeRank : Mode → Nat
  | .solving => 2
  | .backjumping => 1
  | .doneSol => 0
  | .doneUnsat => 0

/-- Positional weight of a digit vector: earlier entries weigh more. -/
def weights (base : Nat) : List Nat → Nat
  | [] => 0
  | c :: cs => c * base ^ cs.length + weights base cs

/-- Measure contribution of a stack frame. -/
def frameContrib (f : Frame) : Nat := 2 * f.rest.length + 2

/-- Measure contribution of the pending slot; an empty slot is the
unopened-level sentinel. -/
def pendContrib (sentinel : Nat) : Option (Nat × List Nat) → Nat
  | none => sentinel
  | some (_, l) => 2 * l.length + 1

/-- The digit vector of a state: frame contributions bottom-first, then
the pending slot, then sentinel digits for unopened levels. -/
def cvec (u : Universe) (st : St) : List Nat :=
  (st.stack.reverse.map frameContrib)
    ++ pendContrib (2 * maxVers u + 3) st.pending
    :: List.replicate (u.pkgs.length - st.stack.length) (2 * maxVers u + 3)

/-- The termination measure of the solver loop. -/
def measureM (u : Universe) (st : St) : Nat :=
  3 * weights (2 * maxVers u + 4) (cvec u st) + modeRank st.mode

/-- State validity: frames hold known packages with bounded candidate
lists, no package is decided twice on the stack, and a pending retry
concerns an undecided known package. -/
def Valid (u : Universe) (st : St) : Prop :=
  (∀ f ∈ st.stack, f.pkg ∈ u.pkgs ∧ f.rest.length ≤ maxVers u)
    ∧ (st.stack.map Frame.pkg).Nodup
    ∧ (∀ p l, st.pending = some (p, l) →
        p ∈ u.pkgs ∧ p ∉ st.stack.map Frame.pkg ∧ l.length ≤ maxVers u)

/-- Universe well-formedness: dependency edges only target known
packages. -/
structure WFU (u : Universe) : Prop where
  rootTargets : ∀ e ∈ u.rootDeps, e.1 ∈ u.pkgs
  depTargets : ∀ p v, ∀ e ∈ u.deps p v, e.1 ∈ u.pkgs

/-- The example universe of spec §8: package 1 is A with versions 2.0 and
1.0 (encoded 2 and 1), package 2 is B with only version 1.0; the root
requires A in the half-open interval from 1 to 3; A at 2 requires B
exactly 2; A at 1 requires B exactly 1. -/
def scenarioU : Universe where
  pkgs := [1, 2]
  versions := fun p => if p = 1 then [2, 1] else if p = 2 then [1] else []
  deps := fun p v =>
    if p = 1 && v = 2 then [(2, VRange.singleton 2)]
    else if p = 1 && v = 1 then [(2, VRange.singleton 1)]
    else []
  rootDeps := [(1, [⟨.incl 1, .excl 3⟩])]

end Solver

section ProjectTheorems

/-- C8: when the requirements specification has no source trees and the
existing environment's site packages already satisfy all requirements and
constraints (`SatisfiesResult::Fresh`), `update_environment` returns the
given environment unchanged with an empty effect trace: no registry client
is built, nothing is resolved, nothing is installed. -/
theorem update_environment_fresh_exit
    (venv : Proj.PythonEnvironment) (w : Proj.UpdateWorld) (spec : Proj.Spec)
    (sp : Nat) (rs : List Nat)
    (hspec : w.fromSources = .ok spec)
    (hsp : w.sitePackages = .ok sp)
    (hempty : spec.sourceTrees = [])
    (hsat : w.satisfies = .ok (.fresh rs)) :
    Proj.update_environment venv w = (.ok venv, [])
      ∧ Proj.Effect.buildRegistryClient ∉ (Proj.update_environment venv w).2
      ∧ Proj.Effect.resolve ∉ (Proj.update_environment venv w).2
      ∧ Proj.Effect.install ∉ (Proj.update_environment venv w).2 := by
  simp [Proj.update_environment, hspec, hsp, hempty, hsat, List.isEmpty]

/-- Witness for C8 at a concrete world. -/
theorem update_environment_fresh_exit_witness :
    Proj.update_environment Proj.sampleVenv Proj.updateWorldFresh
      = (.ok Proj.sampleVenv, []) :=
  (update_environment_fresh_exit Proj.sampleVenv Proj.updateWorldFresh
    ⟨[1], [], [], [], none⟩ 7 [1] rfl rfl rfl rfl).1

/-- C9: when an existing virtual environment is discovered, an explicit
`python` argument alone determines whether the interpreter is satisfactory
(the `requires_python` specifier is ignored); with `python = none` the
`requires_python` specifier is checked instead; and with both absent the
existing environment is accepted and returned as-is. -/
theorem init_environment_python_precedence
    (w : Proj.InitWorld) (venv : Proj.PythonEnvironment)
    (hroot : w.fromRoot = .ok venv) :
    (∀ p rp rp', Proj.init_environment (some p) rp w
        = Proj.init_environment (some p) rp' w)
    ∧ (∀ p rp, Proj.venvPythonSatisfactory (some p) rp w venv.interpreter
        = w.requestSatisfied p venv.interpreter)
    ∧ (∀ rp, Proj.venvPythonSatisfactory none (some rp) w venv.interpreter
        = w.specContains rp venv.interpreter.pythonVersion)
    ∧ Proj.init_environment none none w = (.ok venv, []) := by
  refine ⟨fun p rp rp' => rfl, fun p rp => rfl, fun rp => rfl, ?_⟩
  simp [Proj.init_environment, hroot, Proj.venvPythonSatisfactory]

/-- Witness for C9 at a concrete world. -/
theorem init_environment_python_precedence_witness :
    Proj.init_environment none none Proj.initWorldSat
      = (.ok Proj.sampleVenv, []) :=
  (init_environment_python_precedence Proj.initWorldSat Proj.sampleVenv rfl).2.2.2

/-- C10: if the discovered environment's interpreter is unsatisfactory,
`init_environment` removes the whole venv directory and proceeds to create
a fresh environment; a `NotFound` discovery error leads to creation with no
removal; any other discovery error is returned unchanged with nothing
created or removed; and the creation phase, when its operations succeed,
returns the freshly created environment, appending exactly one creation
effect. -/
theorem init_environment_recreate_and_errors
    (w : Proj.InitWorld) (python requiresPython : Option Nat) :
    (∀ venv, w.fromRoot = .ok venv →
      Proj.venvPythonSatisfactory python requiresPython w venv.interpreter = false →
      w.writeRemoving = .ok () → w.removeDir = .ok () →
      Proj.init_environment python requiresPython w
        = Proj.createPhase python w [.removeDir venv.root])
    ∧ (∀ path, w.fromRoot = .error (.notFound path) →
      Proj.init_environment python requiresPython w
        = Proj.createPhase python w [])
    ∧ (∀ code, w.fromRoot = .error (.other code) →
      Proj.init_environment python requiresPython w
        = (.error (.interpreter (.other code)), []))
    ∧ (∀ eff env nv,
      Proj.selectInterp python w = .ok env →
      w.writeUsing = .ok () → w.writeCreating = .ok () →
      w.createVenv = .ok nv →
      Proj.createPhase python w eff = (.ok nv, eff ++ [.createVenv])) := by
  refine ⟨?_, ?_, ?_, ?_⟩
  · intro venv hroot hsat hwr hrm
    simp [Proj.init_environment, hroot, hsat, hwr, hrm]
  · intro path hroot
    simp [Proj.init_environment, hroot]
  · intro code hroot
    simp [Proj.init_environment, hroot]
  · intro eff env nv hint hwu hwc hcv
    simp [Proj.createPhase, hint, hwu, hwc, hcv]

/-- Witness for C10: the unsatisfactory-interpreter path, the not-found
path, and the hard-error path at concrete worlds. -/
theorem init_environment_recreate_and_errors_witness :
    Proj.init_environment (some 0) none Proj.initWorldUnsat
      = Proj.createPhase (some 0) Proj.initWorldUnsat [.removeDir Proj.sampleVenv.root]
    ∧ Proj.init_environment none none Proj.initWorldNotFound
      = Proj.createPhase none Proj.initWorldNotFound []
    ∧ Proj.init_environment none none Proj.initWorldErr
      = (.error (.interpreter (.other 5)), [])
    ∧ Proj.createPhase none Proj.initWorldNotFound []
      = (.ok Proj.sampleNewVenv, [.createVenv]) :=
  ⟨(init_environment_recreate_and_errors Proj.initWorldUnsat (some 0) none).1
      Proj.sampleVenv rfl rfl rfl rfl,
   (init_environment_recreate_and_errors Proj.initWorldNotFound none none).2.1 0 rfl,
   (init_environment_recreate_and_errors Proj.initWorldErr none none).2.2.1 5 rfl,
   (init_environment_recreate_and_errors Proj.initWorldNotFound none none).2.2.2
      [] Proj.sampleNewVenv Proj.sampleNewVenv rfl rfl rfl rfl⟩

end ProjectTheorems

namespace VRange

theorem lbLe_refl (a : LB) : lbLe a a = true := by
  cases a <;> simp [lbLe]

theorem lbLe_total (a b : LB) : lbLe a b = true ∨ lbLe b a = true := by
  cases a <;> cases b <;> simp [lbLe] <;> omega

theorem lbLe_antisymm {a b : LB} (h1 : lbLe a b = true) (h2 : lbLe b a = true) :
    a = b := by
  cases a <;> cases b <;> simp [lbLe] at h1 h2 ⊢ <;> omega

theorem ubLe_refl (a : UB) : ubLe a a = true := by
  cases a <;> simp [ubLe]

theorem ubLe_total (a b : UB) : ubLe a b = true ∨ ubLe b a = true := by
  cases a <;> cases b <;> simp [ubLe] <;> omega

theorem ubLe_antisymm {a b : UB} (h1 : ubLe a b = true) (h2 : ubLe b a = true) :
    a = b := by
  cases a <;> cases b <;> simp [ubLe] at h1 h2 ⊢ <;> omega

theorem maxLB_comm (a b : LB) : maxLB a b = maxLB b a := by
  unfold maxLB
  by_cases h1 : lbLe a b = true <;> by_cases h2 : lbLe b a = true <;>
      simp [h1, h2]
  · exact lbLe_antisymm h2 h1
  · rcases lbLe_total a b with h | h
    · exact absurd h h1
    · exact absurd h h2

theorem minUB_comm (a b : UB) : minUB a b = minUB b a := by
  unfold minUB
  by_cases h1 : ubLe a b = true <;> by_cases h2 : ubLe b a = true <;>
      simp [h1, h2]
  · exact ubLe_antisymm h1 h2
  · rcases ubLe_total a b with h | h
    · exact absurd h h1
    · exact absurd h h2

theorem ubLt_asymm {a b : UB} (h : ubLt a b = true) : ubLt b a = false := by
  unfold ubLt at h ⊢
  rcases ubLe_total a b with h' | h'
  · simp [h']
  · simp [h'] at h

theorem minUB_eq_left {a b : UB} (h : ubLe a b = true) : minUB a b = a := by
  simp [minUB, h]

theorem minUB_eq_right {a b : UB} (h : ubLe b a = true) : minUB a b = b := by
  unfold minUB
  by_cases h1 : ubLe a b = true
  · simp [h1, ubLe_antisymm h1 h]
  · simp [h1]

theorem ubLe_of_ubLt {a b : UB} (h : ubLt a b = true) : ubLe a b = true := by
  unfold ubLt at h
  rcases ubLe_total a b with h' | h'
  · exact h'
  · simp [h'] at h

theorem lbLe_maxLB_left (a b : LB) : lbLe a (maxLB a b) = true := by
  unfold maxLB
  by_cases h : lbLe a b = true <;> simp [h, lbLe_refl]

theorem lbLe_maxLB_right (a b : LB) : lbLe b (maxLB a b) = true := by
  unfold maxLB
  by_cases h : lbLe a b = true <;> simp [h, lbLe_refl]
  rcases lbLe_total a b with h' | h'
  · exact absurd h' h
  · exact h'

theorem gapB_mono {h : UB} {l l' : LB} (hg : gapB h l = true)
    (hle : lbLe l l' = true) : gapB h l' = true := by
  cases h <;> cases l <;> cases l' <;> simp [gapB, lbLe] at hg hle ⊢ <;> omega

theorem gapB_trans {x : UB} {lo : LB} {hi : UB} {lo₂ : LB}
    (h1 : gapB x lo = true) (h2 : nonemptyB lo hi = true)
    (h3 : gapB hi lo₂ = true) : gapB x lo₂ = true := by
  cases x <;> cases lo <;> cases hi <;> cases lo₂ <;>
      simp [gapB, nonemptyB] at h1 h2 h3 ⊢ <;> omega

theorem chain_gapsAfter {x : UB} {l : List Seg} (h : chain x l = true) :
    gapsAfter x l := by
  induction l generalizing x with
  | nil => intro s hs; simp at hs
  | cons t rest ih =>
    simp only [chain, Bool.and_eq_true] at h
    intro s hs
    rcases List.mem_cons.mp hs with rfl | hs
    · exact h.1.1
    · exact gapB_trans h.1.1 h.1.2 (ih h.2 s hs)

end VRange

namespace VRange

theorem lbLe_flipU {lo : LB} {hi : UB} (h : nonemptyB lo hi = true)
    (hne : hi ≠ .unbounded) : lbLe lo (flipU hi) = true := by
  cases lo <;> cases hi <;> simp_all [nonemptyB, lbLe, flipU] <;> omega

theorem gap_not_lbLe {hi : UB} {lo : LB} (h : gapB hi lo = true) :
    lbLe lo (flipU hi) = false := by
  cases hi <;> cases lo <;> simp_all [gapB, lbLe, flipU] <;> omega

theorem gap_ubLe {hi : UB} {lo : LB} (h : gapB hi lo = true) :
    ubLe hi (flipL lo) = true := by
  cases hi <;> cases lo <;> simp_all [gapB, ubLe, flipL] <;> omega

theorem gap_not_ubLe {hi : UB} {lo : LB} (h : gapB hi lo = true) :
    ubLe (flipL lo) hi = false := by
  cases hi <;> cases lo <;> simp_all [gapB, ubLe, flipL] <;> omega

theorem valid_not_ubLe {lo : LB} {hi : UB} (h : nonemptyB lo hi = true)
    (hne : lo ≠ .unbounded) : ubLe hi (flipL lo) = false := by
  cases lo <;> cases hi <;> simp_all [nonemptyB, ubLe, flipL] <;> omega

theorem valid_ubLe {lo : LB} {hi : UB} (h : nonemptyB lo hi = true)
    (hne : lo ≠ .unbounded) : ubLe (flipL lo) hi = true := by
  cases lo <;> cases hi <;> simp_all [nonemptyB, ubLe, flipL] <;> omega

theorem nonempty_flipU_self {hi : UB} (hne : hi ≠ .unbounded) :
    nonemptyB (flipU hi) hi = false := by
  cases hi <;> simp_all [nonemptyB, flipU]

theorem nonempty_self_flipL {lo : LB} (hne : lo ≠ .unbounded) :
    nonemptyB lo (flipL lo) = false := by
  cases lo <;> simp_all [nonemptyB, flipL]

theorem gap_nonempty_flip {hi : UB} {lo : LB} (h : gapB hi lo = true) :
    nonemptyB (flipU hi) (flipL lo) = true := by
  cases hi <;> cases lo <;> simp_all [gapB, nonemptyB, flipU, flipL] <;> omega

theorem valid_gap_flip {lo : LB} {hi : UB} (h : nonemptyB lo hi = true)
    (hlo : lo ≠ .unbounded) (hhi : hi ≠ .unbounded) :
    gapB (flipL lo) (flipU hi) = true := by
  cases lo <;> cases hi <;> simp_all [nonemptyB, gapB, flipU, flipL] <;> omega

theorem flipU_flipL {lo : LB} (hne : lo ≠ .unbounded) : flipU (flipL lo) = lo := by
  cases lo <;> simp_all [flipU, flipL]

theorem flipL_flipU {hi : UB} (hne : hi ≠ .unbounded) : flipL (flipU hi) = hi := by
  cases hi <;> simp_all [flipU, flipL]

theorem gapB_ne {hi : UB} {lo : LB} (h : gapB hi lo = true) :
    hi ≠ .unbounded ∧ lo ≠ .unbounded := by
  cases hi <;> cases lo <;> simp_all [gapB]

theorem ubLt_to_unbounded {hi : UB} (hne : hi ≠ .unbounded) :
    ubLt hi .unbounded = true := by
  cases hi <;> simp_all [ubLt, ubLe]

end VRange

namespace VRange

theorem ubLt_total_tie {a b : UB} (h1 : ubLt a b = false) (h2 : ubLt b a = false) :
    a = b := by
  unfold ubLt at h1 h2
  simp at h1 h2
  exact ubLe_antisymm h2 h1

theorem intersect_comm : ∀ (a b : Range), intersect a b = intersect b a
  | [], [] => by simp only [intersect]
  | [], _ :: _ => by simp only [intersect]
  | _ :: _, [] => by simp only [intersect]
  | s :: ss, t :: tt => by
    have hrest : (if ubLt s.hi t.hi then intersect ss (t :: tt)
          else if ubLt t.hi s.hi then intersect (s :: ss) tt
          else intersect ss tt)
        = (if ubLt t.hi s.hi then intersect tt (s :: ss)
          else if ubLt s.hi t.hi then intersect (t :: tt) ss
          else intersect tt ss) := by
      cases h1 : ubLt s.hi t.hi with
      | true =>
        simp only [h1, ubLt_asymm h1, if_true, if_false, Bool.false_eq_true]
        exact intersect_comm ss (t :: tt)
      | false =>
        cases h2 : ubLt t.hi s.hi with
        | true =>
          simp only [h1, h2, if_true, if_false, Bool.false_eq_true]
          exact intersect_comm (s :: ss) tt
        | false =>
          simp only [h1, h2, if_false, Bool.false_eq_true]
          exact intersect_comm ss tt
    simp only [intersect]
    rw [maxLB_comm t.lo s.lo, minUB_comm t.hi s.hi, ← hrest]
  termination_by a b => a.length + b.length
  decreasing_by all_goals simp <;> omega

end VRange

namespace VRange

theorem maxLB_eq_right {a b : LB} (h : lbLe a b = true) : maxLB a b = b := by
  simp [maxLB, h]

theorem maxLB_eq_left {a b : LB} (h : lbLe a b = false) : maxLB a b = a := by
  simp [maxLB, h]

theorem minUB_eq_right' {a b : UB} (h : ubLe a b = false) : minUB a b = b := by
  simp [minUB, h]

theorem ubLe_unbounded (a : UB) : ubLe a .unbounded = true := by
  cases a <;> simp [ubLe]

theorem intersect_nil_left (b : Range) : intersect [] b = [] := by
  simp only [intersect]

theorem intersect_nil_right (a : Range) : intersect a [] = [] := by
  cases a <;> simp only [intersect]

theorem intersect_complTail : ∀ (ss : List Seg) (s : Seg),
    nonemptyB s.lo s.hi = true → chain s.hi ss = true →
    intersect (s :: ss) (complTail s.hi ss) = []
  | [], s, hvalid, _ => by
    obtain ⟨lo, hi⟩ := s
    by_cases hne : hi = UB.unbounded
    · subst hne
      simp [complTail, intersect_nil_right]
    · have h1 := lbLe_flipU hvalid hne
      have h7 := nonempty_flipU_self hne
      have h14 := ubLt_to_unbounded hne
      have hct : complTail hi [] = [⟨flipU hi, .unbounded⟩] := by
        cases hi <;> simp_all [complTail]
      rw [hct]
      simp only [intersect]
      rw [maxLB_eq_right h1, minUB_eq_left (ubLe_unbounded hi)]
      simp only [h7, h14, Bool.false_eq_true, if_false, if_true,
        intersect_nil_left]
  | u :: uu, s, hvalid, hchain => by
    simp only [chain, Bool.and_eq_true] at hchain
    obtain ⟨⟨hgap, huvalid⟩, huchain⟩ := hchain
    obtain ⟨hhine, hulone⟩ := gapB_ne hgap
    rw [complTail]
    simp only [intersect]
    rw [maxLB_eq_right (lbLe_flipU hvalid hhine),
      minUB_eq_left (gap_ubLe hgap)]
    have hrest1 : ubLt s.hi (flipL u.lo) = true := by
      unfold ubLt
      rw [gap_not_ubLe hgap]
      rfl
    simp only [nonempty_flipU_self hhine, hrest1, Bool.false_eq_true, if_false,
      if_true]
    rw [maxLB_eq_left (gap_not_lbLe hgap),
      minUB_eq_right' (valid_not_ubLe huvalid hulone)]
    have hrest2 : ubLt u.hi (flipL u.lo) = false := by
      unfold ubLt
      rw [valid_ubLe huvalid hulone]
      rfl
    have hrest3 : ubLt (flipL u.lo) u.hi = true := by
      unfold ubLt
      rw [valid_not_ubLe huvalid hulone]
      rfl
    simp only [nonempty_self_flipL hulone, hrest2, hrest3, Bool.false_eq_true,
      if_false, if_true]
    exact intersect_complTail uu u huvalid huchain

end VRange

namespace VRange

theorem lbLe_unbounded_right {a : LB} (h : a ≠ .unbounded) :
    lbLe a .unbounded = false := by
  cases a <;> simp_all [lbLe]

theorem intersect_complement_empty {a : Range} (h : Normalized a = true) :
    intersect a (complement a) = empty := by
  cases a with
  | nil => simp [complement, empty, intersect_nil_left]
  | cons s rest =>
    simp only [Normalized, Bool.and_eq_true] at h
    obtain ⟨hvalid, hchain⟩ := h
    by_cases hlo : s.lo = LB.unbounded
    · have hc : complement (s :: rest) = complTail s.hi rest := by
        cases hs : s.lo <;> simp_all [complement]
      rw [hc]
      exact intersect_complTail rest s hvalid hchain
    · have hc : complement (s :: rest)
          = ⟨.unbounded, flipL s.lo⟩ :: complTail s.hi rest := by
        cases hs : s.lo <;> simp_all [complement]
      rw [hc]
      simp only [intersect]
      rw [maxLB_eq_left (lbLe_unbounded_right hlo),
        minUB_eq_right' (valid_not_ubLe hvalid hlo)]
      have hrest2 : ubLt s.hi (flipL s.lo) = false := by
        unfold ubLt
        rw [valid_ubLe hvalid hlo]
        rfl
      have hrest3 : ubLt (flipL s.lo) s.hi = true := by
        unfold ubLt
        rw [valid_not_ubLe hvalid hlo]
        rfl
      simp only [nonempty_self_flipL hlo, hrest2, hrest3, Bool.false_eq_true,
        if_false, if_true]
      exact intersect_complTail rest s hvalid hchain

theorem complTail_complTail : ∀ (rest : List Seg) (lo : LB) (hi : UB),
    lo ≠ .unbounded → chain hi rest = true →
    complTail (flipL lo) (complTail hi rest) = ⟨lo, hi⟩ :: rest
  | [], lo, hi, hlo, _ => by
    by_cases hhi : hi = UB.unbounded
    · subst hhi
      have h1 : complTail UB.unbounded ([] : List Seg) = [] := by
        simp [complTail]
      rw [h1]
      have h2 : flipL lo ≠ UB.unbounded := by
        cases lo <;> simp_all [flipL]
      have h3 : complTail (flipL lo) ([] : List Seg)
          = [⟨flipU (flipL lo), .unbounded⟩] := by
        cases hl : flipL lo <;> simp_all [complTail]
      rw [h3, flipU_flipL hlo]
    · have h1 : complTail hi ([] : List Seg) = [⟨flipU hi, .unbounded⟩] := by
        cases hi <;> simp_all [complTail]
      rw [h1, complTail]
      rw [flipU_flipL hlo, flipL_flipU hhi]
      have h2 : complTail UB.unbounded ([] : List Seg) = [] := by
        simp [complTail]
      rw [h2]
  | t :: tt, lo, hi, hlo, hchain => by
    simp only [chain, Bool.and_eq_true] at hchain
    obtain ⟨⟨hgap, htvalid⟩, htchain⟩ := hchain
    obtain ⟨hhine, htlone⟩ := gapB_ne hgap
    rw [complTail, complTail]
    rw [flipU_flipL hlo, flipL_flipU hhine]
    rw [complTail_complTail tt t.lo t.hi htlone htchain]

theorem complement_complement {a : Range} (h : Normalized a = true) :
    complement (complement a) = a := by
  cases a with
  | nil =>
    have h1 : complement ([] : Range) = [⟨.unbounded, .unbounded⟩] := by
      simp [complement]
    rw [h1]
    simp [complement, complTail]
  | cons s rest =>
    obtain ⟨slo, shi⟩ := s
    simp only [Normalized, Bool.and_eq_true] at h
    obtain ⟨hvalid, hchain⟩ := h
    by_cases hlo : slo = LB.unbounded
    · subst hlo
      have hc : complement (⟨LB.unbounded, shi⟩ :: rest) = complTail shi rest := by
        simp [complement]
      rw [hc]
      cases rest with
      | nil =>
        by_cases hhi : shi = UB.unbounded
        · subst hhi
          have h1 : complTail UB.unbounded ([] : List Seg) = [] := by
            simp [complTail]
          rw [h1]
          simp [complement, complTail]
        · have h1 : complTail shi ([] : List Seg)
              = [⟨flipU shi, .unbounded⟩] := by
            cases shi <;> simp_all [complTail]
          rw [h1]
          have h2 : flipU shi ≠ LB.unbounded := by
            cases shi <;> simp_all [flipU]
          have h3 : complement [(⟨flipU shi, .unbounded⟩ : Seg)]
              = ⟨.unbounded, flipL (flipU shi)⟩ :: complTail .unbounded [] := by
            cases hf : flipU shi <;> simp_all [complement]
          rw [h3, flipL_flipU hhi]
          have h4 : complTail UB.unbounded ([] : List Seg) = [] := by
            simp [complTail]
          rw [h4]
      | cons t tt =>
        simp only [chain, Bool.and_eq_true] at hchain
        obtain ⟨⟨hgap, htvalid⟩, htchain⟩ := hchain
        obtain ⟨hhine, htlone⟩ := gapB_ne hgap
        rw [complTail]
        have h2 : flipU shi ≠ LB.unbounded := by
          cases shi <;> simp_all [flipU]
        have h3 : complement (⟨flipU shi, flipL t.lo⟩ :: complTail t.hi tt)
            = ⟨.unbounded, flipL (flipU shi)⟩
              :: complTail (flipL t.lo) (complTail t.hi tt) := by
          cases hf : flipU shi <;> simp_all [complement]
        rw [h3, flipL_flipU hhine,
          complTail_complTail tt t.lo t.hi htlone htchain]
    · have hc : complement (⟨slo, shi⟩ :: rest)
          = ⟨.unbounded, flipL slo⟩ :: complTail shi rest := by
        cases slo <;> simp_all [complement]
      rw [hc]
      have h3 : complement (⟨(.unbounded : LB), flipL slo⟩ :: complTail shi rest)
          = complTail (flipL slo) (complTail shi rest) := by
        simp [complement]
      rw [h3, complTail_complTail rest slo shi hlo hchain]

theorem union_complement_full {a : Range} (h : Normalized a = true) :
    union a (complement a) = full := by
  unfold union
  rw [complement_complement h, intersect_comm, intersect_complement_empty h]
  simp [complement, empty, full]

end VRange

namespace VRange

theorem nonemptyB_unbounded_right (lo : LB) : nonemptyB lo .unbounded = true := by
  cases lo <;> simp [nonemptyB]

theorem nonemptyB_unbounded_left (hi : UB) : nonemptyB .unbounded hi = true := by
  cases hi <;> simp [nonemptyB]

theorem chain_normalized : ∀ {l : List Seg} {h : UB}, chain h l = true →
    Normalized l = true
  | [], _, _ => rfl
  | x :: xs, h, hc => by
    simp only [chain, Bool.and_eq_true] at hc
    simp only [Normalized, Bool.and_eq_true]
    exact ⟨hc.1.2, hc.2⟩

theorem chain_complTail : ∀ (tt : List Seg) (t : Seg),
    nonemptyB t.lo t.hi = true → t.lo ≠ .unbounded → chain t.hi tt = true →
    chain (flipL t.lo) (complTail t.hi tt) = true
  | [], t, hv, hlo, _ => by
    by_cases hhi : t.hi = UB.unbounded
    · rw [hhi]
      simp [complTail, chain]
    · have h1 : complTail t.hi [] = [⟨flipU t.hi, .unbounded⟩] := by
        cases ht : t.hi <;> simp_all [complTail]
      rw [h1]
      simp only [chain, Bool.and_eq_true]
      exact ⟨⟨valid_gap_flip hv hlo hhi, nonemptyB_unbounded_right _⟩, trivial⟩
  | u :: uu, t, hv, hlo, hchain => by
    simp only [chain, Bool.and_eq_true] at hchain
    obtain ⟨⟨hgap, huvalid⟩, huchain⟩ := hchain
    obtain ⟨hhine, hulone⟩ := gapB_ne hgap
    rw [complTail]
    simp only [chain, Bool.and_eq_true]
    exact ⟨⟨valid_gap_flip hv hlo hhine, gap_nonempty_flip hgap⟩,
      chain_complTail uu u huvalid hulone huchain⟩

theorem normalized_complTail : ∀ (rest : List Seg) (hi : UB),
    chain hi rest = true → Normalized (complTail hi rest) = true
  | [], hi, _ => by
    by_cases hhi : hi = UB.unbounded
    · rw [hhi]
      simp [complTail, Normalized]
    · have h1 : complTail hi [] = [⟨flipU hi, .unbounded⟩] := by
        cases hi <;> simp_all [complTail]
      rw [h1]
      simp only [Normalized, Bool.and_eq_true]
      exact ⟨nonemptyB_unbounded_right _, rfl⟩
  | t :: tt, hi, hchain => by
    simp only [chain, Bool.and_eq_true] at hchain
    obtain ⟨⟨hgap, htvalid⟩, htchain⟩ := hchain
    obtain ⟨hhine, htlone⟩ := gapB_ne hgap
    rw [complTail]
    simp only [Normalized, Bool.and_eq_true]
    exact ⟨gap_nonempty_flip hgap, chain_complTail tt t htvalid htlone htchain⟩

theorem complement_normalized {a : Range} (h : Normalized a = true) :
    Normalized (complement a) = true := by
  cases a with
  | nil => simp [complement, Normalized, nonemptyB, chain]
  | cons s rest =>
    obtain ⟨slo, shi⟩ := s
    simp only [Normalized, Bool.and_eq_true] at h
    obtain ⟨hvalid, hchain⟩ := h
    by_cases hlo : slo = LB.unbounded
    · subst hlo
      have hc : complement (⟨LB.unbounded, shi⟩ :: rest) = complTail shi rest := by
        simp [complement]
      rw [hc]
      exact normalized_complTail rest shi hchain
    · have hc : complement (⟨slo, shi⟩ :: rest)
          = ⟨.unbounded, flipL slo⟩ :: complTail shi rest := by
        cases slo <;> simp_all [complement]
      rw [hc]
      simp only [Normalized, Bool.and_eq_true]
      exact ⟨nonemptyB_unbounded_left _,
        chain_complTail rest ⟨slo, shi⟩ hvalid hlo hchain⟩

theorem gapsAfter_cons {h : UB} {s : Seg} {l : List Seg}
    (hg : gapsAfter h (s :: l)) : gapsAfter h l :=
  fun x hx => hg x (List.mem_cons_of_mem s hx)

theorem intersect_normalized_aux : ∀ (a b : Range),
    Normalized a = true → Normalized b = true →
    Normalized (intersect a b) = true
    ∧ ∀ h : UB, gapsAfter h a ∨ gapsAfter h b →
        chain h (intersect a b) = true
  | [], b, _, _ => by
    rw [intersect_nil_left]
    exact ⟨rfl, fun _ _ => rfl⟩
  | a :: as', [], _, _ => by
    rw [intersect_nil_right]
    exact ⟨rfl, fun _ _ => rfl⟩
  | s :: ss, t :: tt, hna, hnb => by
    simp only [Normalized, Bool.and_eq_true] at hna hnb
    obtain ⟨hsv, hsc⟩ := hna
    obtain ⟨htv, htc⟩ := hnb
    have hgl : ∀ h : UB, gapsAfter h (s :: ss) ∨ gapsAfter h (t :: tt) →
        gapB h (maxLB s.lo t.lo) = true := by
      intro h hg
      rcases hg with hg | hg
      · exact gapB_mono (hg s (List.mem_cons_self s ss)) (lbLe_maxLB_left _ _)
      · exact gapB_mono (hg t (List.mem_cons_self t tt)) (lbLe_maxLB_right _ _)
    by_cases h1 : ubLt s.hi t.hi = true
    · have hmin : minUB s.hi t.hi = s.hi := minUB_eq_left (ubLe_of_ubLt h1)
      have ih := intersect_normalized_aux ss (t :: tt) (chain_normalized hsc)
        (by simp only [Normalized, Bool.and_eq_true]; exact ⟨htv, htc⟩)
      have hch : chain s.hi (intersect ss (t :: tt)) = true :=
        ih.2 s.hi (Or.inl (chain_gapsAfter hsc))
      simp only [intersect, h1, if_true, hmin]
      by_cases hne : nonemptyB (maxLB s.lo t.lo) s.hi = true
      · simp only [hne, if_true]
        constructor
        · simp only [Normalized, Bool.and_eq_true]
          exact ⟨hne, hch⟩
        · intro h hg
          simp only [chain, Bool.and_eq_true]
          exact ⟨⟨hgl h hg, hne⟩, hch⟩
      · simp only [hne, Bool.false_eq_true, if_false]
        constructor
        · exact ih.1
        · intro h hg
          refine ih.2 h ?_
          rcases hg with hg | hg
          · exact Or.inl (gapsAfter_cons hg)
          · exact Or.inr hg
    · by_cases h2 : ubLt t.hi s.hi = true
      · have hle : ubLe s.hi t.hi = false := by
          unfold ubLt at h2
          simp at h2
          exact h2
        have hmin : minUB s.hi t.hi = t.hi := minUB_eq_right' hle
        have ih := intersect_normalized_aux (s :: ss) tt
          (by simp only [Normalized, Bool.and_eq_true]; exact ⟨hsv, hsc⟩)
          (chain_normalized htc)
        have hch : chain t.hi (intersect (s :: ss) tt) = true :=
          ih.2 t.hi (Or.inr (chain_gapsAfter htc))
        simp only [intersect, h1, h2, Bool.false_eq_true, if_false, if_true,
          hmin]
        by_cases hne : nonemptyB (maxLB s.lo t.lo) t.hi = true
        · simp only [hne, if_true]
          constructor
          · simp only [Normalized, Bool.and_eq_true]
            exact ⟨hne, hch⟩
          · intro h hg
            simp only [chain, Bool.and_eq_true]
            exact ⟨⟨hgl h hg, hne⟩, hch⟩
        · simp only [hne, Bool.false_eq_true, if_false]
          constructor
          · exact ih.1
          · intro h hg
            refine ih.2 h ?_
            rcases hg with hg | hg
            · exact Or.inl hg
            · exact Or.inr (gapsAfter_cons hg)
      · have htie : s.hi = t.hi := by
          have e1 : ubLt s.hi t.hi = false := by
            cases h : ubLt s.hi t.hi
            · rfl
            · exact absurd h h1
          have e2 : ubLt t.hi s.hi = false := by
            cases h : ubLt t.hi s.hi
            · rfl
            · exact absurd h h2
          exact ubLt_total_tie e1 e2
        have hmin : minUB s.hi t.hi = s.hi := minUB_eq_left (htie ▸ ubLe_refl s.hi)
        have ih := intersect_normalized_aux ss tt (chain_normalized hsc)
          (chain_normalized htc)
        have hch : chain s.hi (intersect ss tt) = true :=
          ih.2 s.hi (Or.inl (chain_gapsAfter hsc))
        simp only [intersect, h1, h2, Bool.false_eq_true, if_false, hmin]
        by_cases hne : nonemptyB (maxLB s.lo t.lo) s.hi = true
        · simp only [hne, if_true]
          constructor
          · simp only [Normalized, Bool.and_eq_true]
            exact ⟨hne, hch⟩
          · intro h hg
            simp only [chain, Bool.and_eq_true]
            exact ⟨⟨hgl h hg, hne⟩, hch⟩
        · simp only [hne, Bool.false_eq_true, if_false]
          constructor
          · exact ih.1
          · intro h hg
            refine ih.2 h ?_
            rcases hg with hg | hg
            · exact Or.inl (gapsAfter_cons hg)
            · exact Or.inr (gapsAfter_cons hg)
  termination_by a b => a.length + b.length
  decreasing_by all_goals simp <;> omega

theorem intersect_normalized {a b : Range} (ha : Normalized a = true)
    (hb : Normalized b = true) : Normalized (intersect a b) = true :=
  (intersect_normalized_aux a b ha hb).1

theorem union_normalized {a b : Range} (ha : Normalized a = true)
    (hb : Normalized b = true) : Normalized (union a b) = true :=
  complement_normalized
    (intersect_normalized (complement_normalized ha) (complement_normalized hb))

end VRange

section RangeClaim

/-- C6: Version Range algebra laws (spec §4.1, §8): intersection is
commutative as stored data, the union of a range with its complement is
the full range, the intersection of a range with its complement is the
empty range, and every range-algebra operation returns a result in
normalized (merged, non-overlapping, ascending) interval form; every
operation is a pure Lean function of its arguments. -/
theorem range_algebra_laws (a b : VRange.Range)
    (ha : VRange.Normalized a = true) (hb : VRange.Normalized b = true) :
    VRange.intersect a b = VRange.intersect b a
    ∧ VRange.union a (VRange.complement a) = VRange.full
    ∧ VRange.intersect a (VRange.complement a) = VRange.empty
    ∧ VRange.Normalized (VRange.intersect a b) = true
    ∧ VRange.Normalized (VRange.complement a) = true
    ∧ VRange.Normalized (VRange.union a b) = true
    ∧ (∀ v, VRange.Normalized (VRange.singleton v) = true
        ∧ VRange.Normalized (VRange.exactNot v) = true
        ∧ VRange.Normalized (VRange.atLeast v) = true
        ∧ VRange.Normalized (VRange.atMost v) = true)
    ∧ VRange.Normalized VRange.full = true
    ∧ VRange.Normalized VRange.empty = true := by
  refine ⟨VRange.intersect_comm a b, VRange.union_complement_full ha,
    VRange.intersect_complement_empty ha, VRange.intersect_normalized ha hb,
    VRange.complement_normalized ha, VRange.union_normalized ha hb,
    fun v => ⟨?_, ?_, ?_, ?_⟩, rfl, rfl⟩ <;>
    simp [VRange.Normalized, VRange.singleton, VRange.exactNot,
      VRange.atLeast, VRange.atMost, VRange.nonemptyB, VRange.chain,
      VRange.gapB]

/-- Witness for C6 at two concrete normalized ranges. -/
theorem range_algebra_laws_witness :
    VRange.intersect [⟨.incl 1, .excl 3⟩] [⟨.incl 2, .incl 5⟩]
      = VRange.intersect [⟨.incl 2, .incl 5⟩] [⟨.incl 1, .excl 3⟩]
    ∧ VRange.union [⟨.incl 1, .excl 3⟩]
        (VRange.complement [⟨.incl 1, .excl 3⟩]) = VRange.full :=
  ⟨(range_algebra_laws [⟨.incl 1, .excl 3⟩] [⟨.incl 2, .incl 5⟩]
      (by decide) (by decide)).1,
   (range_algebra_laws [⟨.incl 1, .excl 3⟩] [⟨.incl 2, .incl 5⟩]
      (by decide) (by decide)).2.1⟩

end RangeClaim

section TranslateClaim

/-- C7: a requirement whose marker evaluates to false against the fixed
current-environment marker context contributes no constraint at all: its
translation is `none`, and the translated constraint list of any
requirement sequence containing it equals that of the sequence without it
— it is dropped rather than turned into an empty or unsatisfiable
range. -/
theorem marker_false_dropped (env : List Bool) (r : Translate.Requirement)
    (m : Translate.Marker) (hm : r.marker = some m)
    (hf : Translate.evalMarker env m = false) :
    Translate.translate env r = none
    ∧ ∀ xs ys, Translate.translateAll env (xs ++ r :: ys)
        = Translate.translateAll env (xs ++ ys) := by
  have ht : Translate.translate env r = none := by
    simp [Translate.translate, hm, hf]
  refine ⟨ht, fun xs ys => ?_⟩
  simp [Translate.translateAll, List.filterMap_append, List.filterMap_cons, ht]

/-- Witness for C7 at a concrete requirement with a false marker. -/
theorem marker_false_dropped_witness :
    Translate.translate [] ⟨1, [Translate.Cmp.ge 1], some .mfalse⟩ = none
    ∧ Translate.translateAll []
        ([⟨2, [], none⟩] ++ ⟨1, [Translate.Cmp.ge 1], some .mfalse⟩ :: [])
      = Translate.translateAll [] ([⟨2, [], none⟩] ++ []) :=
  ⟨(marker_false_dropped [] ⟨1, [Translate.Cmp.ge 1], some .mfalse⟩
      .mfalse rfl rfl).1,
   (marker_false_dropped [] ⟨1, [Translate.Cmp.ge 1], some .mfalse⟩
      .mfalse rfl rfl).2 [⟨2, [], none⟩] []⟩

end TranslateClaim

namespace Fetch

theorem pickVersion_ok_fetch : ∀ (cands : List Nat)
    (fetch : Nat → FetchOutcome) (v : Nat) (d : List (Nat × VRange.Range)),
    pickVersion fetch cands = .ok (some (v, d)) →
    fetch v = .ok d ∧ v ∈ cands
  | [], _, _, _, h => by simp [pickVersion] at h
  | w :: ws, fetch, v, d, h => by
    rw [pickVersion] at h
    cases hf : fetch w with
    | ok d' =>
      rw [hf] at h
      simp only [Except.ok.injEq, Option.some.injEq, Prod.mk.injEq] at h
      obtain ⟨rfl, rfl⟩ := h
      exact ⟨hf, List.mem_cons_self w ws⟩
    | soft =>
      rw [hf] at h
      have := pickVersion_ok_fetch ws fetch v d h
      exact ⟨this.1, List.mem_cons_of_mem w this.2⟩
    | hard e =>
      rw [hf] at h
      simp at h

theorem pickVersion_none_iff : ∀ (cands : List Nat)
    (fetch : Nat → FetchOutcome),
    pickVersion fetch cands = .ok none ↔ ∀ v ∈ cands, fetch v = .soft
  | [], fetch => by simp [pickVersion]
  | w :: ws, fetch => by
    rw [pickVersion]
    cases hf : fetch w with
    | ok d => simp [hf]
    | soft => simp [hf, pickVersion_none_iff ws fetch]
    | hard e => simp [hf]

theorem pickVersion_error_hard : ∀ (cands : List Nat)
    (fetch : Nat → FetchOutcome) (e : Nat),
    pickVersion fetch cands = .error e →
    ∃ v ∈ cands, fetch v = .hard e
  | [], _, _, h => by simp [pickVersion] at h
  | w :: ws, fetch, e, h => by
    rw [pickVersion] at h
    cases hf : fetch w with
    | ok d => rw [hf] at h; simp at h
    | soft =>
      rw [hf] at h
      obtain ⟨v, hv, hfv⟩ := pickVersion_error_hard ws fetch e h
      exact ⟨v, List.mem_cons_of_mem w hv, hfv⟩
    | hard e' =>
      rw [hf] at h
      simp only [Except.error.injEq] at h
      subst h
      exact ⟨w, List.mem_cons_self w ws, hf⟩

theorem pickVersion_hard_abort : ∀ (pre : List Nat)
    (fetch : Nat → FetchOutcome) (v : Nat) (post : List Nat) (e : Nat),
    (∀ w ∈ pre, fetch w = .soft) → fetch v = .hard e →
    pickVersion fetch (pre ++ v :: post) = .error e
  | [], fetch, v, post, e, _, hv => by
    rw [List.nil_append, pickVersion, hv]
  | w :: ws, fetch, v, post, e, hpre, hv => by
    rw [List.cons_append, pickVersion,
      hpre w (List.mem_cons_self w ws)]
    exact pickVersion_hard_abort ws fetch v post e
      (fun x hx => hpre x (List.mem_cons_of_mem w hx)) hv

end Fetch

section FetchClaim

/-- C4: soft versus hard fetch failure (spec §4.3, §7): a version whose
fetch fails softly is treated as nonexistent — it is never the selected
version — and the `NoVersions`-style outcome (`ok none`) arises exactly
when no candidate version is fetchable (all fail softly); a hard
authentication/transport/parse failure aborts the walk immediately with
the error propagated to the caller untranslated (an `error`, never an
incompatibility encoding), and an error outcome only ever reports an
actual hard failure of some candidate. -/
theorem fetch_failure_policy (f : Nat → Fetch.FetchOutcome) (cands : List Nat) :
    (∀ v d, Fetch.pickVersion f cands = .ok (some (v, d)) →
      f v = .ok d ∧ v ∈ cands)
    ∧ (Fetch.pickVersion f cands = .ok none ↔ ∀ v ∈ cands, f v = .soft)
    ∧ (∀ e, Fetch.pickVersion f cands = .error e →
        ∃ v ∈ cands, f v = .hard e)
    ∧ (∀ pre v post e, cands = pre ++ v :: post →
        (∀ w ∈ pre, f w = .soft) → f v = .hard e →
        Fetch.pickVersion f cands = .error e) :=
  ⟨fun v d h => Fetch.pickVersion_ok_fetch cands f v d h,
   Fetch.pickVersion_none_iff cands f,
   fun e h => Fetch.pickVersion_error_hard cands f e h,
   fun pre v post e hc hpre hv => by
     subst hc
     exact Fetch.pickVersion_hard_abort pre f v post e hpre hv⟩

end FetchClaim

section FetchWitness

/-- Witness for C4: the all-soft list yields the `NoVersions` signal, and
a hard failure aborts with the untranslated error. -/
theorem fetch_failure_policy_witness :
    Fetch.pickVersion (fun _ => Fetch.FetchOutcome.soft) [] = .ok none
    ∧ Fetch.pickVersion (fun _ => Fetch.FetchOutcome.hard 7) [5] = .error 7 :=
  ⟨(fetch_failure_policy (fun _ => .soft) []).2.1.mpr (by simp),
   (fetch_failure_policy (fun _ => .hard 7) [5]).2.2.2 [] 5 [] 7 rfl
     (by simp) rfl⟩

end FetchWitness

namespace Flight

theorem fetchCount_cons (e : (Nat × Nat) × Nat × Bool)
    (evs : List ((Nat × Nat) × Nat × Bool)) (k : Nat × Nat) :
    fetchCount (e :: evs) k
      = (if e.1 = k ∧ e.2.2 = true then 1 else 0) + fetchCount evs k := by
  simp only [fetchCount, List.filter_cons]
  by_cases h1 : e.1 = k <;> by_cases h2 : e.2.2 = true <;>
    simp [h1, h2, Nat.add_comm]

theorem request_lookup_fresh {t : Table} {k : Nat × Nat}
    (h : lookup t k = none) : lookup (request t k).1 k = some t.nextCell := by
  unfold request
  rw [h]
  simp [lookup, List.find?_cons]

theorem request_lookup_other {t : Table} {k k' : Nat × Nat} (hne : k ≠ k') :
    lookup (request t k').1 k = lookup t k := by
  unfold request
  cases h : lookup t k' with
  | some c => rfl
  | none =>
    have hne' : k' ≠ k := fun hh => hne hh.symm
    simp [lookup, List.find?_cons, hne']

theorem request_preserves_some {t : Table} {k k' : Nat × Nat} {c : Nat}
    (h : lookup t k = some c) : lookup (request t k').1 k = some c := by
  by_cases he : k = k'
  · subst he
    unfold request
    rw [h]
    exact h
  · rw [request_lookup_other he]
    exact h

theorem runRequests_hit : ∀ (ks : List (Nat × Nat)) (t : Table)
    (k : Nat × Nat) (c : Nat), lookup t k = some c →
    fetchCount (runRequests t ks).2 k = 0
    ∧ ∀ e ∈ (runRequests t ks).2, e.1 = k → e.2.1 = c
  | [], t, k, c, _ => by simp [runRequests, fetchCount]
  | k' :: ks, t, k, c, h => by
    rw [runRequests]
    by_cases he : k' = k
    · subst he
      have hreq : request t k' = (t, c, false) := by
        unfold request
        rw [h]
      rw [hreq]
      have ih := runRequests_hit ks t k' c h
      refine ⟨?_, ?_⟩
      · rw [fetchCount_cons]
        simp [ih.1]
      · intro e he'
        rcases List.mem_cons.mp he' with rfl | he'
        · intro _
          rfl
        · exact ih.2 e he'
    · have hlk : lookup (request t k').1 k = some c :=
        request_preserves_some h
      have ih := runRequests_hit ks (request t k').1 k c hlk
      refine ⟨?_, ?_⟩
      · rw [fetchCount_cons]
        simp [he, ih.1]
      · intro e he'
        rcases List.mem_cons.mp he' with rfl | he'
        · intro hh
          exact absurd hh he
        · exact ih.2 e he'

theorem runRequests_fresh : ∀ (ks : List (Nat × Nat)) (t : Table)
    (k : Nat × Nat), lookup t k = none → k ∈ ks →
    fetchCount (runRequests t ks).2 k = 1
    ∧ ∃ c, ∀ e ∈ (runRequests t ks).2, e.1 = k → e.2.1 = c
  | [], _, _, _, hk => by simp at hk
  | k' :: ks, t, k, h, hk => by
    rw [runRequests]
    by_cases he : k' = k
    · subst he
      have hreq : request t k' = (⟨(k', t.nextCell) :: t.entries, t.nextCell + 1⟩,
          t.nextCell, true) := by
        unfold request
        rw [h]
      rw [hreq]
      have hlk : lookup (⟨(k', t.nextCell) :: t.entries, t.nextCell + 1⟩ : Table) k'
          = some t.nextCell := by
        simp [lookup, List.find?_cons]
      have ih := runRequests_hit ks _ k' t.nextCell hlk
      refine ⟨?_, t.nextCell, ?_⟩
      · rw [fetchCount_cons]
        simp [ih.1]
      · intro e he'
        rcases List.mem_cons.mp he' with rfl | he'
        · intro _
          rfl
        · exact ih.2 e he'
    · have hk' : k ∈ ks := by
        rcases List.mem_cons.mp hk with rfl | hk'
        · exact absurd rfl he
        · exact hk'
      have hlk : lookup (request t k').1 k = none := by
        rw [request_lookup_other (fun hh => he hh.symm)]
        exact h
      have ih := runRequests_fresh ks (request t k').1 k hlk hk'
      obtain ⟨c, hc⟩ := ih.2
      refine ⟨?_, c, ?_⟩
      · rw [fetchCount_cons]
        simp [he, ih.1]
      · intro e he'
        rcases List.mem_cons.mp he' with rfl | he'
        · intro hh
          exact absurd hh he
        · exact hc e he'

end Flight

section FlightClaim

/-- C5: in-flight fetch deduplication (spec §5, §4.3): for any arbitrary
sequential interleaving of concurrent request arrivals starting from the
empty in-flight table, a (package, version) key that occurs among the
requests causes exactly one underlying fetch, and every request for that
key receives the same completion cell — later callers attach to the first
fetch's completion. -/
theorem inflight_dedup (ks : List (Nat × Nat)) (k : Nat × Nat)
    (hk : k ∈ ks) :
    Flight.fetchCount (Flight.runRequests Flight.Table.emptyT ks).2 k = 1
    ∧ ∃ c, ∀ e ∈ (Flight.runRequests Flight.Table.emptyT ks).2,
        e.1 = k → e.2.1 = c :=
  Flight.runRequests_fresh ks Flight.Table.emptyT k rfl hk

/-- Witness for C5: three interleaved requests, two for the same key. -/
theorem inflight_dedup_witness :
    Flight.fetchCount
      (Flight.runRequests Flight.Table.emptyT [(1, 2), (3, 4), (1, 2)]).2
      (1, 2) = 1 :=
  (inflight_dedup [(1, 2), (3, 4), (1, 2)] (1, 2) (by simp)).1

end FlightClaim

namespace Solver

theorem step_decides (u : Universe) (stack : List Frame) (p v : Nat)
    (vs : List Nat)
    (hconf : hasConflict u stack = false)
    (hnext : nextUndecided u stack = some p)
    (hcand : candidates u stack p = v :: vs) :
    step u ⟨stack, none, .solving⟩
      = ⟨⟨p, v, vs⟩ :: stack, none, .solving⟩ := by
  simp [step, hconf, hnext, hcand]

theorem candidates_head_max (u : Universe) (stack : List Frame) (p v : Nat)
    (vs : List Nat)
    (hcand : candidates u stack p = v :: vs)
    (hsorted : List.Pairwise (fun a b => b ≤ a) (u.versions p)) :
    ∀ w ∈ candidates u stack p, w ≤ v := by
  have hps : List.Pairwise (fun a b => b ≤ a) (candidates u stack p) :=
    List.Pairwise.filter _ hsorted
  rw [hcand] at hps
  rw [hcand]
  intro w hw
  rcases List.mem_cons.mp hw with rfl | hw
  · exact le_refl w
  · exact (List.pairwise_cons.mp hps).1 w hw

end Solver

section SolverScenario

/-- C3: the prefer-latest decision policy (spec §4.5) and the example
scenario of spec §8. Deciding pushes the head of the descending candidate
list, which is the highest version satisfying all currently known
constraints; on the scenario universe (root requires A in the interval
from 1 inclusive to 3 exclusive; A at 2 requires B exactly 2; A at 1
requires B exactly 1; only B = 1 exists) the solver first tries A = 2,
backjumps, and finishes with exactly the solution A = 1, B = 1. -/
theorem prefer_latest_and_scenario :
    (∀ (u : Solver.Universe) (stack : List Solver.Frame) (p v : Nat)
        (vs : List Nat),
      Solver.hasConflict u stack = false →
      Solver.nextUndecided u stack = some p →
      Solver.candidates u stack p = v :: vs →
      List.Pairwise (fun a b => b ≤ a) (u.versions p) →
      Solver.step u ⟨stack, none, .solving⟩
          = ⟨⟨p, v, vs⟩ :: stack, none, .solving⟩
        ∧ v ∈ Solver.candidates u stack p
        ∧ ∀ w ∈ Solver.candidates u stack p, w ≤ v)
    ∧ Solver.decisions (Solver.run Solver.scenarioU 1) = [(1, 2)]
    ∧ (Solver.run Solver.scenarioU 2).mode = .backjumping
    ∧ (Solver.run Solver.scenarioU 3).stack = []
    ∧ (Solver.run Solver.scenarioU 6).mode = .doneSol
    ∧ Solver.decisions (Solver.run Solver.scenarioU 6) = [(2, 1), (1, 1)] := by
  refine ⟨fun u stack p v vs hconf hnext hcand hsorted => ?_, ?_, ?_, ?_, ?_, ?_⟩
  · refine ⟨Solver.step_decides u stack p v vs hconf hnext hcand, ?_,
      Solver.candidates_head_max u stack p v vs hcand hsorted⟩
    rw [hcand]
    exact List.mem_cons_self v vs
  · decide
  · decide
  · decide
  · decide
  · decide

/-- Witness for C3: the prefer-latest step at the scenario's first
decision picks A = 2, the highest candidate in the root range. -/
theorem prefer_latest_and_scenario_witness :
    Solver.step Solver.scenarioU ⟨[], none, .solving⟩
      = ⟨[⟨1, 2, [1]⟩], none, .solving⟩
    ∧ ∀ w ∈ Solver.candidates Solver.scenarioU [] 1, w ≤ 2 :=
  ⟨(prefer_latest_and_scenario.1 Solver.scenarioU [] 1 2 [1]
      (by decide) (by decide) (by decide) (by decide)).1,
   (prefer_latest_and_scenario.1 Solver.scenarioU [] 1 2 [1]
      (by decide) (by decide) (by decide) (by decide)).2.2⟩

end SolverScenario

namespace Solver

theorem run_succ (u : Universe) (n : Nat) :
    run u (n + 1) = step u (run u n) := by
  unfold run
  exact Function.iterate_succ_apply' (step u) n solveInit

theorem step_doneSol_cases (u : Universe) (st : St)
    (h : (step u st).mode = .doneSol) :
    (st.mode = .doneSol ∧ step u st = st)
    ∨ (hasConflict u st.stack = false
       ∧ nextUndecided u st.stack = none
       ∧ (step u st).stack = st.stack) := by
  obtain ⟨stack, pending, mode⟩ := st
  cases mode with
  | doneSol => exact Or.inl ⟨rfl, rfl⟩
  | doneUnsat => simp [step] at h
  | backjumping =>
    cases stack with
    | nil => simp [step] at h
    | cons f rest => simp [step] at h
  | solving =>
    cases pending with
    | some q =>
      obtain ⟨p, l⟩ := q
      cases l with
      | nil => simp [step] at h
      | cons v vs => simp [step] at h
    | none =>
      cases hconf : hasConflict u stack with
      | true => simp [step, hconf] at h
      | false =>
        cases hnext : nextUndecided u stack with
        | none =>
          refine Or.inr ⟨rfl, rfl, ?_⟩
          simp [step, hconf, hnext]
        | some p =>
          cases hcand : candidates u stack p with
          | nil => simp [step, hconf, hnext, hcand] at h
          | cons v vs => simp [step, hconf, hnext, hcand] at h

theorem run_doneSol_inv (u : Universe) : ∀ n, (run u n).mode = .doneSol →
    hasConflict u (run u n).stack = false
    ∧ nextUndecided u (run u n).stack = none
  | 0, h => by simp [run, solveInit] at h
  | n + 1, h => by
    rw [run_succ] at h ⊢
    rcases step_doneSol_cases u (run u n) h with ⟨hm, he⟩ | ⟨hc, hn, hs⟩
    · rw [he]
      exact run_doneSol_inv u n hm
    · rw [hs]
      exact ⟨hc, hn⟩

theorem no_conflict_satisfies {u : Universe} {stack : List Frame}
    (hconf : hasConflict u stack = false) :
    ∀ f ∈ stack, satisfiesAll u stack f.pkg f.ver = true := by
  intro f hf
  have := List.any_eq_false.mp hconf f hf
  simpa using this

theorem all_mentioned_decided {u : Universe} {stack : List Frame}
    (hnext : nextUndecided u stack = none) :
    ∀ q ∈ mentioned u stack, decidedB stack q = true := by
  intro q hq
  have := List.find?_eq_none.mp hnext q hq
  simpa using this

theorem decided_mem_decisions {stack : List Frame} {q : Nat}
    (h : decidedB stack q = true) :
    ∃ w, ∃ f ∈ stack, f.pkg = q ∧ f.ver = w := by
  obtain ⟨f, hf, hfq⟩ := List.any_eq_true.mp h
  exact ⟨f.ver, f, hf, by simpa using hfq, rfl⟩

theorem constraint_satisfied {u : Universe} {stack : List Frame} {q : Nat}
    {r : VRange.Range}
    (hconf : hasConflict u stack = false)
    (hnext : nextUndecided u stack = none)
    (hqm : q ∈ mentioned u stack)
    (hr : r ∈ constraintsOn u stack q) :
    ∃ w, (q, w) ∈ (stack.map (fun f => (f.pkg, f.ver)))
      ∧ VRange.contains r w = true := by
  have hdec := all_mentioned_decided hnext q hqm
  obtain ⟨w, f, hf, hfq, hfw⟩ := decided_mem_decisions hdec
  refine ⟨w, ?_, ?_⟩
  · exact List.mem_map.mpr ⟨f, hf, by rw [hfq, hfw]⟩
  · have hsat := no_conflict_satisfies hconf f hf
    rw [hfq, hfw] at hsat
    exact List.all_eq_true.mp hsat r hr

theorem root_edge_mentioned {u : Universe} {stack : List Frame} {q : Nat}
    {r : VRange.Range} (he : (q, r) ∈ u.rootDeps) :
    q ∈ mentioned u stack := by
  unfold mentioned
  refine List.mem_append_left _ ?_
  exact List.mem_map.mpr ⟨(q, r), he, rfl⟩

theorem root_edge_constraint {u : Universe} {stack : List Frame} {q : Nat}
    {r : VRange.Range} (he : (q, r) ∈ u.rootDeps) :
    r ∈ constraintsOn u stack q := by
  unfold constraintsOn
  refine List.mem_append_left _ ?_
  refine List.mem_map.mpr ⟨(q, r), ?_, rfl⟩
  exact List.mem_filter.mpr ⟨he, by simp⟩

theorem dep_edge_mentioned {u : Universe} {stack : List Frame}
    {f : Frame} {q : Nat} {r : VRange.Range}
    (hf : f ∈ stack) (he : (q, r) ∈ u.deps f.pkg f.ver) :
    q ∈ mentioned u stack := by
  unfold mentioned
  refine List.mem_append_right _ ?_
  refine List.mem_join.mpr ⟨(u.deps f.pkg f.ver).map (fun e => e.1), ?_, ?_⟩
  · exact List.mem_map.mpr ⟨f, hf, rfl⟩
  · exact List.mem_map.mpr ⟨(q, r), he, rfl⟩

theorem dep_edge_constraint {u : Universe} {stack : List Frame}
    {f : Frame} {q : Nat} {r : VRange.Range}
    (hf : f ∈ stack) (he : (q, r) ∈ u.deps f.pkg f.ver) :
    r ∈ constraintsOn u stack q := by
  unfold constraintsOn
  refine List.mem_append_right _ ?_
  refine List.mem_join.mpr
    ⟨((u.deps f.pkg f.ver).filter (fun e => e.1 = q)).map (fun e => e.2), ?_, ?_⟩
  · exact List.mem_map.mpr ⟨f, hf, rfl⟩
  · refine List.mem_map.mpr ⟨(q, r), ?_, rfl⟩
    exact List.mem_filter.mpr ⟨he, by simp⟩

end Solver

section SolverSoundness

/-- C1: soundness of returned solutions (spec §8): whenever the solver
loop reaches `Done(Solution)`, every selected version lies inside every
range derived from every dependency edge active under the assignment —
each root dependency and each dependency edge of a decided (package,
version) points at a package that is decided at a version inside the
edge's range, so no constraint of any active edge is violated. -/
theorem solver_soundness (u : Solver.Universe) (n : Nat)
    (hdone : (Solver.run u n).mode = .doneSol) :
    (∀ e ∈ u.rootDeps, ∃ w,
      (e.1, w) ∈ Solver.decisions (Solver.run u n)
      ∧ VRange.contains e.2 w = true)
    ∧ (∀ p v, (p, v) ∈ Solver.decisions (Solver.run u n) →
      ∀ e ∈ u.deps p v, ∃ w,
        (e.1, w) ∈ Solver.decisions (Solver.run u n)
        ∧ VRange.contains e.2 w = true) := by
  obtain ⟨hconf, hnext⟩ := Solver.run_doneSol_inv u n hdone
  constructor
  · intro e he
    obtain ⟨q, r⟩ := e
    exact Solver.constraint_satisfied hconf hnext
      (Solver.root_edge_mentioned he) (Solver.root_edge_constraint he)
  · intro p v hpv e he
    obtain ⟨q, r⟩ := e
    obtain ⟨f, hf, hfe⟩ := List.mem_map.mp hpv
    have hfp : f.pkg = p := congrArg Prod.fst hfe
    have hfv : f.ver = v := congrArg Prod.snd hfe
    rw [← hfp, ← hfv] at he
    exact Solver.constraint_satisfied hconf hnext
      (Solver.dep_edge_mentioned hf he) (Solver.dep_edge_constraint hf he)

/-- Witness for C1: the scenario universe's final state is sound. -/
theorem solver_soundness_witness :
    ∃ w, (1, w) ∈ Solver.decisions (Solver.run Solver.scenarioU 6)
      ∧ VRange.contains [⟨.incl 1, .excl 3⟩] w = true :=
  (solver_soundness Solver.scenarioU 6 (by decide)).1
    (1, [⟨.incl 1, .excl 3⟩]) (by decide)

end SolverSoundness

namespace Solver

theorem weights_append (base : Nat) (xs ys : List Nat) :
    weights base (xs ++ ys)
      = weights base xs * base ^ ys.length + weights base ys := by
  induction xs with
  | nil => simp [weights]
  | cons c cs ih =>
    simp only [List.cons_append, weights, List.append_eq, List.length_append,
      ih, List.length_cons, pow_add]
    ring

theorem weights_bound {base : Nat} : ∀ {l : List Nat}, (∀ x ∈ l, x < base) →
    weights base l < base ^ l.length
  | [], _ => by simp [weights]
  | c :: cs, h => by
    simp only [weights, List.length_cons, pow_succ]
    have h1 : c < base := h c (List.mem_cons_self c cs)
    have h2 : weights base cs < base ^ cs.length :=
      weights_bound (fun x hx => h x (List.mem_cons_of_mem c hx))
    calc c * base ^ cs.length + weights base cs
        < (c + 1) * base ^ cs.length := by
          have : (1 : Nat) ≤ 2 ^ (0 : Nat) := Nat.one_le_two_pow
          nlinarith
      _ ≤ base * base ^ cs.length := by
          exact Nat.mul_le_mul_right _ h1
      _ = base ^ cs.length * base := by ring

theorem weights_digit_lt (base : Nat) (pre : List Nat) (c d : Nat)
    (cs ds : List Nat) (hlen : cs.length = ds.length) (hcd : c < d)
    (hcs : ∀ x ∈ cs, x < base) :
    weights base (pre ++ c :: cs) < weights base (pre ++ d :: ds) := by
  rw [weights_append, weights_append]
  simp only [List.length_cons, hlen]
  have h1 : weights base (c :: cs) < weights base (d :: ds) := by
    simp only [weights, hlen]
    have hb := weights_bound hcs
    rw [hlen] at hb
    have hc1 : c * base ^ ds.length + weights base cs
        < (c + 1) * base ^ ds.length := by nlinarith
    have hc2 : (c + 1) * base ^ ds.length ≤ d * base ^ ds.length :=
      Nat.mul_le_mul_right _ hcd
    omega
  omega

end Solver

namespace Solver

theorem le_foldr_max : ∀ (l : List Nat) (x : Nat), x ∈ l →
    x ≤ l.foldr max 0
  | [], _, hx => by simp at hx
  | y :: ys, x, hx => by
    rcases List.mem_cons.mp hx with rfl | hx
    · exact le_max_left _ _
    · exact le_trans (le_foldr_max ys x hx) (le_max_right _ _)

theorem maxVers_ge {u : Universe} {p : Nat} (hp : p ∈ u.pkgs) :
    (u.versions p).length ≤ maxVers u :=
  le_foldr_max _ _ (List.mem_map.mpr ⟨p, hp, rfl⟩)

theorem mentioned_mem_pkgs {u : Universe} (hwf : WFU u)
    {stack : List Frame} {q : Nat} (hq : q ∈ mentioned u stack) :
    q ∈ u.pkgs := by
  unfold mentioned at hq
  rcases List.mem_append.mp hq with hq | hq
  · obtain ⟨e, he, rfl⟩ := List.mem_map.mp hq
    exact hwf.rootTargets e he
  · obtain ⟨l, hl, hql⟩ := List.mem_join.mp hq
    obtain ⟨f, _, rfl⟩ := List.mem_map.mp hl
    obtain ⟨e, he, rfl⟩ := List.mem_map.mp hql
    exact hwf.depTargets f.pkg f.ver e he

theorem decidedB_false_iff {stack : List Frame} {q : Nat} :
    decidedB stack q = false ↔ q ∉ stack.map Frame.pkg := by
  unfold decidedB
  rw [List.any_eq_false]
  simp only [List.mem_map, not_exists, not_and, decide_eq_true_eq]

theorem nextUndecided_spec {u : Universe} {stack : List Frame} {p : Nat}
    (h : nextUndecided u stack = some p) :
    p ∈ mentioned u stack ∧ decidedB stack p = false := by
  refine ⟨List.mem_of_find?_eq_some h, ?_⟩
  have := List.find?_some h
  simpa using this

theorem candidates_length_le {u : Universe} {stack : List Frame} {p : Nat}
    (hp : p ∈ u.pkgs) : (candidates u stack p).length ≤ maxVers u :=
  le_trans (List.length_filter_le _ _) (maxVers_ge hp)

theorem nodup_length_le {l l' : List Nat} (hn : l.Nodup)
    (hs : ∀ x ∈ l, x ∈ l') : l.length ≤ l'.length := by
  classical
  calc l.length = l.toFinset.card := (List.toFinset_card_of_nodup hn).symm
    _ ≤ l'.toFinset.card := by
        refine Finset.card_le_card ?_
        intro x hx
        rw [List.mem_toFinset] at hx ⊢
        exact hs x hx
    _ ≤ l'.length := List.toFinset_card_le l'

theorem valid_init (u : Universe) : Valid u solveInit := by
  refine ⟨?_, ?_, ?_⟩
  · intro f hf
    simp [solveInit] at hf
  · simp [solveInit]
  · intro p l hp
    simp [solveInit] at hp

theorem step_conflict_eq (u : Universe) (stack : List Frame)
    (hconf : hasConflict u stack = true) :
    step u ⟨stack, none, .solving⟩ = ⟨stack, none, .backjumping⟩ := by
  simp [step, hconf]

theorem step_allDecided_eq (u : Universe) (stack : List Frame)
    (hconf : hasConflict u stack = false)
    (hnext : nextUndecided u stack = none) :
    step u ⟨stack, none, .solving⟩ = ⟨stack, none, .doneSol⟩ := by
  simp [step, hconf, hnext]

theorem step_noVersions_eq (u : Universe) (stack : List Frame) (p : Nat)
    (hconf : hasConflict u stack = false)
    (hnext : nextUndecided u stack = some p)
    (hcand : candidates u stack p = []) :
    step u ⟨stack, none, .solving⟩ = ⟨stack, none, .backjumping⟩ := by
  simp [step, hconf, hnext, hcand]

theorem step_repush_eq (u : Universe) (stack : List Frame) (p v : Nat)
    (vs : List Nat) :
    step u ⟨stack, some (p, v :: vs), .solving⟩
      = ⟨⟨p, v, vs⟩ :: stack, none, .solving⟩ := by
  simp [step]

theorem step_exhausted_eq (u : Universe) (stack : List Frame) (p : Nat) :
    step u ⟨stack, some (p, []), .solving⟩
      = ⟨stack, some (p, []), .backjumping⟩ := by
  simp [step]

theorem step_pop_eq (u : Universe) (f : Frame) (rest : List Frame)
    (pending : Option (Nat × List Nat)) :
    step u ⟨f :: rest, pending, .backjumping⟩
      = ⟨rest, some (f.pkg, f.rest), .solving⟩ := by
  simp [step]

theorem step_unsat_eq (u : Universe) (pending : Option (Nat × List Nat)) :
    step u ⟨[], pending, .backjumping⟩ = ⟨[], pending, .doneUnsat⟩ := by
  simp [step]

theorem valid_step (u : Universe) (hwf : WFU u) (st : St)
    (hv : Valid u st) : Valid u (step u st) := by
  obtain ⟨hframes, hnodup, hpend⟩ := hv
  obtain ⟨stack, pending, mode⟩ := st
  cases mode with
  | doneSol => exact ⟨hframes, hnodup, hpend⟩
  | doneUnsat => exact ⟨hframes, hnodup, hpend⟩
  | backjumping =>
    cases stack with
    | nil =>
      rw [step_unsat_eq]
      exact ⟨hframes, hnodup, hpend⟩
    | cons f rest =>
      rw [step_pop_eq]
      refine ⟨?_, ?_, ?_⟩
      · intro g hg
        exact hframes g (List.mem_cons_of_mem f hg)
      · exact (List.nodup_cons.mp hnodup).2
      · intro p l hp
        simp only [Option.some.injEq, Prod.mk.injEq] at hp
        obtain ⟨rfl, rfl⟩ := hp
        have hf := hframes f (List.mem_cons_self f rest)
        exact ⟨hf.1, (List.nodup_cons.mp hnodup).1, hf.2⟩
  | solving =>
    cases pending with
    | some q =>
      obtain ⟨p, l⟩ := q
      cases l with
      | nil =>
        rw [step_exhausted_eq]
        exact ⟨hframes, hnodup, hpend⟩
      | cons v vs =>
        rw [step_repush_eq]
        have hp := hpend p (v :: vs) rfl
        refine ⟨?_, ?_, ?_⟩
        · intro g hg
          rcases List.mem_cons.mp hg with rfl | hg
          · refine ⟨hp.1, ?_⟩
            have h2 := hp.2.2
            simp only [List.length_cons] at h2
            show vs.length ≤ maxVers u
            omega
          · exact hframes g hg
        · simp only [List.map_cons]
          exact List.nodup_cons.mpr ⟨hp.2.1, hnodup⟩
        · intro p' l' hp'
          simp at hp'
    | none =>
      cases hconf : hasConflict u stack with
      | true =>
        rw [step_conflict_eq u stack hconf]
        exact ⟨hframes, hnodup, hpend⟩
      | false =>
        cases hnext : nextUndecided u stack with
        | none =>
          rw [step_allDecided_eq u stack hconf hnext]
          exact ⟨hframes, hnodup, hpend⟩
        | some p =>
          obtain ⟨hpm, hpd⟩ := nextUndecided_spec hnext
          have hppkg : p ∈ u.pkgs := mentioned_mem_pkgs hwf hpm
          cases hcand : candidates u stack p with
          | nil =>
            rw [step_noVersions_eq u stack p hconf hnext hcand]
            exact ⟨hframes, hnodup, hpend⟩
          | cons v vs =>
            rw [step_decides u stack p v vs hconf hnext hcand]
            refine ⟨?_, ?_, ?_⟩
            · intro g hg
              rcases List.mem_cons.mp hg with rfl | hg
              · refine ⟨hppkg, ?_⟩
                have h2 := @candidates_length_le u stack p hppkg
                rw [hcand] at h2
                simp only [List.length_cons] at h2
                show vs.length ≤ maxVers u
                omega
              · exact hframes g hg
            · simp only [List.map_cons]
              exact List.nodup_cons.mpr ⟨decidedB_false_iff.mp hpd, hnodup⟩
            · intro p' l' hp'
              simp at hp'

end Solver

namespace Solver

theorem stack_pkgs_sub {u : Universe} {stack : List Frame}
    (hframes : ∀ f ∈ stack, f.pkg ∈ u.pkgs ∧ f.rest.length ≤ maxVers u) :
    ∀ q ∈ stack.map Frame.pkg, q ∈ u.pkgs := by
  intro q hq
  obtain ⟨f, hf, rfl⟩ := List.mem_map.mp hq
  exact (hframes f hf).1

theorem cvec_mode_irrel (u : Universe) (stack : List Frame)
    (pending : Option (Nat × List Nat)) (m m' : Mode) :
    cvec u ⟨stack, pending, m⟩ = cvec u ⟨stack, pending, m'⟩ := rfl

theorem cvec_cons (u : Universe) (f : Frame) (rest : List Frame)
    (pending : Option (Nat × List Nat)) (m : Mode) :
    cvec u ⟨f :: rest, pending, m⟩
      = rest.reverse.map frameContrib ++ frameContrib f
          :: pendContrib (2 * maxVers u + 3) pending
          :: List.replicate (u.pkgs.length - (rest.length + 1))
              (2 * maxVers u + 3) := by
  unfold cvec
  rw [List.reverse_cons, List.map_append, List.append_assoc]
  rfl

theorem measure_decrease (u : Universe) (hwf : WFU u) (st : St)
    (hv : Valid u st) (hnd : ¬IsDone st) :
    measureM u (step u st) < measureM u st := by
  obtain ⟨hframes, hnodup, hpend⟩ := hv
  obtain ⟨stack, pending, mode⟩ := st
  cases mode with
  | doneSol => exact absurd (Or.inl rfl) hnd
  | doneUnsat => exact absurd (Or.inr rfl) hnd
  | backjumping =>
    cases stack with
    | nil =>
      rw [step_unsat_eq]
      unfold measureM
      rw [cvec_mode_irrel u [] pending .doneUnsat .backjumping]
      simp [modeRank]
    | cons f rest =>
      rw [step_pop_eq]
      have hk : rest.length + 1 ≤ u.pkgs.length := by
        have h1 := nodup_length_le hnodup (stack_pkgs_sub hframes)
        simpa using h1
      unfold measureM
      have hW : weights (2 * maxVers u + 4)
            (cvec u ⟨rest, some (f.pkg, f.rest), .solving⟩)
          < weights (2 * maxVers u + 4)
            (cvec u ⟨f :: rest, pending, .backjumping⟩) := by
        rw [cvec_cons]
        unfold cvec
        refine weights_digit_lt (2 * maxVers u + 4)
          (rest.reverse.map frameContrib)
          (pendContrib (2 * maxVers u + 3) (some (f.pkg, f.rest)))
          (frameContrib f) _ _ ?_ ?_ ?_
        · simp only [List.length_replicate, List.length_cons]
          omega
        · show 2 * f.rest.length + 1 < 2 * f.rest.length + 2
          omega
        · intro x hx
          rw [List.eq_of_mem_replicate hx]
          omega
      have hr1 : modeRank (⟨rest, some (f.pkg, f.rest), .solving⟩ : St).mode
          = 2 := rfl
      have hr2 : modeRank (⟨f :: rest, pending, .backjumping⟩ : St).mode
          = 1 := rfl
      omega
  | solving =>
    cases pending with
    | some q =>
      obtain ⟨p, l⟩ := q
      cases l with
      | nil =>
        rw [step_exhausted_eq]
        unfold measureM
        rw [cvec_mode_irrel u stack (some (p, [])) .backjumping .solving]
        simp [modeRank]
      | cons v vs =>
        rw [step_repush_eq]
        have hp := hpend p (v :: vs) rfl
        have hk : stack.length + 1 ≤ u.pkgs.length := by
          have hn2 : (p :: stack.map Frame.pkg).Nodup :=
            List.nodup_cons.mpr ⟨hp.2.1, hnodup⟩
          have hs2 : ∀ q ∈ p :: stack.map Frame.pkg, q ∈ u.pkgs := by
            intro q hq
            rcases List.mem_cons.mp hq with rfl | hq
            · exact hp.1
            · exact stack_pkgs_sub hframes q hq
          have h1 := nodup_length_le hn2 hs2
          simpa using h1
        unfold measureM
        have hW : weights (2 * maxVers u + 4)
              (cvec u ⟨⟨p, v, vs⟩ :: stack, none, .solving⟩)
            < weights (2 * maxVers u + 4)
              (cvec u ⟨stack, some (p, v :: vs), .solving⟩) := by
          rw [cvec_cons]
          unfold cvec
          refine weights_digit_lt (2 * maxVers u + 4)
            (stack.reverse.map frameContrib)
            (frameContrib ⟨p, v, vs⟩)
            (pendContrib (2 * maxVers u + 3) (some (p, v :: vs))) _ _ ?_ ?_ ?_
          · simp only [List.length_replicate, List.length_cons]
            omega
          · show 2 * vs.length + 2 < 2 * (v :: vs).length + 1
            simp only [List.length_cons]
            omega
          · intro x hx
            rcases List.mem_cons.mp hx with rfl | hx
            · show 2 * maxVers u + 3 < 2 * maxVers u + 4
              omega
            · rw [List.eq_of_mem_replicate hx]
              omega
        have hr1 : modeRank (⟨⟨p, v, vs⟩ :: stack, none, .solving⟩ : St).mode
            = 2 := rfl
        have hr2 : modeRank (⟨stack, some (p, v :: vs), .solving⟩ : St).mode
            = 2 := rfl
        omega
    | none =>
      cases hconf : hasConflict u stack with
      | true =>
        rw [step_conflict_eq u stack hconf]
        unfold measureM
        rw [cvec_mode_irrel u stack none .backjumping .solving]
        simp [modeRank]
      | false =>
        cases hnext : nextUndecided u stack with
        | none =>
          rw [step_allDecided_eq u stack hconf hnext]
          unfold measureM
          rw [cvec_mode_irrel u stack none .doneSol .solving]
          simp [modeRank]
        | some p =>
          obtain ⟨hpm, hpd⟩ := nextUndecided_spec hnext
          have hppkg : p ∈ u.pkgs := mentioned_mem_pkgs hwf hpm
          cases hcand : candidates u stack p with
          | nil =>
            rw [step_noVersions_eq u stack p hconf hnext hcand]
            unfold measureM
            rw [cvec_mode_irrel u stack none .backjumping .solving]
            simp [modeRank]
          | cons v vs =>
            rw [step_decides u stack p v vs hconf hnext hcand]
            have hvslen : vs.length + 1 ≤ maxVers u := by
              have h2 := @candidates_length_le u stack p hppkg
              rw [hcand] at h2
              simpa using h2
            have hk : stack.length + 1 ≤ u.pkgs.length := by
              have hn2 : (p :: stack.map Frame.pkg).Nodup :=
                List.nodup_cons.mpr ⟨decidedB_false_iff.mp hpd, hnodup⟩
              have hs2 : ∀ q ∈ p :: stack.map Frame.pkg, q ∈ u.pkgs := by
                intro q hq
                rcases List.mem_cons.mp hq with rfl | hq
                · exact hppkg
                · exact stack_pkgs_sub hframes q hq
              have h1 := nodup_length_le hn2 hs2
              simpa using h1
            unfold measureM
            have hW : weights (2 * maxVers u + 4)
                  (cvec u ⟨⟨p, v, vs⟩ :: stack, none, .solving⟩)
                < weights (2 * maxVers u + 4)
                  (cvec u ⟨stack, none, .solving⟩) := by
              rw [cvec_cons]
              unfold cvec
              refine weights_digit_lt (2 * maxVers u + 4)
                (stack.reverse.map frameContrib)
                (frameContrib ⟨p, v, vs⟩)
                (pendContrib (2 * maxVers u + 3) none) _ _ ?_ ?_ ?_
              · simp only [List.length_replicate, List.length_cons]
                omega
              · show 2 * vs.length + 2 < 2 * maxVers u + 3
                omega
              · intro x hx
                rcases List.mem_cons.mp hx with rfl | hx
                · show 2 * maxVers u + 3 < 2 * maxVers u + 4
                  omega
                · rw [List.eq_of_mem_replicate hx]
                  omega
            have hr1 : modeRank
                (⟨⟨p, v, vs⟩ :: stack, none, .solving⟩ : St).mode = 2 := rfl
            have hr2 : modeRank (⟨stack, none, .solving⟩ : St).mode = 2 := rfl
            omega

end Solver

namespace Solver

theorem run_valid (u : Universe) (hwf : WFU u) : ∀ n, Valid u (run u n)
  | 0 => valid_init u
  | n + 1 => by
    rw [run_succ]
    exact valid_step u hwf _ (run_valid u hwf n)

theorem iterate_done (u : Universe) (hwf : WFU u) (st : St)
    (hv : Valid u st) : ∃ m, IsDone ((step u)^[m] st) := by
  by_cases hd : IsDone st
  · exact ⟨0, hd⟩
  · have hlt := measure_decrease u hwf st hv hd
    have hv' := valid_step u hwf st hv
    obtain ⟨m, hm⟩ := iterate_done u hwf (step u st) hv'
    refine ⟨m + 1, ?_⟩
    rw [Function.iterate_succ_apply]
    exact hm
  termination_by measureM u st
  decreasing_by exact hlt

theorem solver_terminates (u : Universe) (hwf : WFU u) :
    ∃ n, IsDone (run u n) :=
  iterate_done u hwf solveInit (valid_init u)

theorem backjump_step (u : Universe) (st : St)
    (h : st.mode = .backjumping) :
    (step u st).stack.length < st.stack.length
    ∨ ((step u st).mode = .doneUnsat
       ∧ (step u st).stack = st.stack) := by
  obtain ⟨stack, pending, mode⟩ := st
  cases h
  cases stack with
  | nil =>
    rw [step_unsat_eq]
    exact Or.inr ⟨rfl, rfl⟩
  | cons f rest =>
    rw [step_pop_eq]
    refine Or.inl ?_
    simp

end Solver

section SolverTermination

/-- C2: backjump monotonicity and termination (spec §4.5, §8): every step
taken in the Backjumping state either strictly reduces the decision level
(the decision stack length) or reaches `Done(Unsatisfiable)` with the
level unchanged — the level never increases during backjumping; on every
well-formed finite universe the solver loop reaches a done state after
finitely many steps; and along the way no package — hence no concrete
(package, version) pair — is decided twice on the current decision-level
path. -/
theorem backjump_monotone_and_termination (u : Solver.Universe)
    (hwf : Solver.WFU u) :
    (∀ st : Solver.St, st.mode = .backjumping →
      (Solver.step u st).stack.length < st.stack.length
      ∨ ((Solver.step u st).mode = .doneUnsat
         ∧ (Solver.step u st).stack = st.stack))
    ∧ (∃ n, Solver.IsDone (Solver.run u n))
    ∧ (∀ n, ((Solver.run u n).stack.map Solver.Frame.pkg).Nodup) :=
  ⟨fun st h => Solver.backjump_step u st h,
   Solver.solver_terminates u hwf,
   fun n => (Solver.run_valid u hwf n).2.1⟩

/-- Well-formedness of the scenario universe. -/
theorem scenarioWF : Solver.WFU Solver.scenarioU := by
  constructor
  · intro e he
    simp only [Solver.scenarioU, List.mem_singleton] at he
    subst he
    simp [Solver.scenarioU]
  · intro p v e he
    simp only [Solver.scenarioU] at he ⊢
    split_ifs at he with h1 h2
    · simp only [List.mem_singleton] at he
      subst he
      simp
    · simp only [List.mem_singleton] at he
      subst he
      simp
    · simp at he

/-- Witness for C2 on the scenario universe: the backjump step from the
failed A = 2 attempt reduces the decision level, the solver reaches a
done state, and the decision stacks along the run stay duplicate-free. -/
theorem backjump_monotone_and_termination_witness :
    ((Solver.step Solver.scenarioU
        ⟨[⟨1, 2, [1]⟩], none, .backjumping⟩).stack.length
        < ([⟨1, 2, [1]⟩] : List Solver.Frame).length
      ∨ ((Solver.step Solver.scenarioU
          ⟨[⟨1, 2, [1]⟩], none, .backjumping⟩).mode = .doneUnsat
         ∧ (Solver.step Solver.scenarioU
            ⟨[⟨1, 2, [1]⟩], none, .backjumping⟩).stack = [⟨1, 2, [1]⟩]))
    ∧ (∃ n, Solver.IsDone (Solver.run Solver.scenarioU n))
    ∧ ((Solver.run Solver.scenarioU 6).stack.map Solver.Frame.pkg).Nodup :=
  ⟨(backjump_monotone_and_termination Solver.scenarioU scenarioWF).1
      ⟨[⟨1, 2, [1]⟩], none, .backjumping⟩ rfl,
   (backjump_monotone_and_termination Solver.scenarioU scenarioWF).2.1,
   (backjump_monotone_and_termination Solver.scenarioU scenarioWF).2.2 6⟩

end SolverTermination
